import Mathlib

/-!
Verification of the molndx GROMACS index-file codec (molndx.py).

The program text is embedded shallowly: Python strings become lists of
characters, the file becomes a list of lines, the Python dict mapping group
names to index lists becomes an association list, and the fallible parser
returns an Except value whose error models the ValueError raised by int().
-/

/-- Decidable equality for Except values, used to evaluate the codec on
concrete inputs. -/
instance {ε α : Type} [DecidableEq ε] [DecidableEq α] : DecidableEq (Except ε α) := fun a b =>
  match a, b with
  | .ok x, .ok y =>
    if h : x = y then .isTrue (by rw [h]) else .isFalse (by intro hc; cases hc; exact h rfl)
  | .error x, .error y =>
    if h : x = y then .isTrue (by rw [h]) else .isFalse (by intro hc; cases hc; exact h rfl)
  | .ok _, .error _ => .isFalse (by intro hc; cases hc)
  | .error _, .ok _ => .isFalse (by intro hc; cases hc)

/-- Strings of the embedded program are lists of characters. -/
abbrev Str := List Char

/-- Shorthand turning a Lean string literal into an embedded string. -/
def s (x : String) : Str := x.toList

/-- Characters treated as whitespace by Python str.split, str.strip and
textwrap (space, tab, newline, vertical tab, form feed, carriage return). -/
def pyIsSpace (c : Char) : Bool :=
  c = ' ' || c = '\t' || c = '\n' || c = '\x0b' || c = '\x0c' || c = '\r'

/-- Python str.strip: drop leading and trailing whitespace. -/
def pyStrip (l : Str) : Str :=
  ((l.dropWhile pyIsSpace).reverse.dropWhile pyIsSpace).reverse

/-- Accumulator loop for whitespace splitting; acc holds the current word
reversed. -/
def pySplitGo : Str → Str → List Str
  | [], acc => if acc.isEmpty then [] else [acc.reverse]
  | c :: cs, acc =>
    if pyIsSpace c then
      if acc.isEmpty then pySplitGo cs [] else acc.reverse :: pySplitGo cs []
    else
      pySplitGo cs (c :: acc)

/-- Python str.split() with no argument: split on whitespace runs, discarding
empty fields. -/
def pySplit (l : Str) : List Str := pySplitGo l []

/-- Python str.replace(ch, two-character empty string): remove every
occurrence of a single character. -/
def removeChar (ch : Char) (l : Str) : Str := l.filter (fun c => c ≠ ch)

/-- Decimal digit character for a value below ten. -/
def pyDigitChar (n : Nat) : Char := Char.ofNat (48 + n)

/-- Fuel-driven most-significant-first decimal digits of a natural number.
Structural recursion on fuel keeps the definition kernel-computable. -/
def natDigitsGo : Nat → Nat → Str
  | 0, _ => []
  | fuel + 1, n =>
    if n < 10 then [pyDigitChar n]
    else natDigitsGo fuel (n / 10) ++ [pyDigitChar (n % 10)]

/-- Decimal digits of a natural number, as Python str would render it. -/
def natDigits (n : Nat) : Str := natDigitsGo (n + 1) n

/-- Python str(x) for an integer x. -/
def intRepr (x : Int) : Str :=
  if x < 0 then '-' :: natDigits x.natAbs else natDigits x.natAbs

/-- Numeric value of a digit string, most significant first. -/
def natVal (ds : Str) : Nat := ds.foldl (fun a c => 10 * a + (c.toNat - 48)) 0

/-- Decimal digit test on the ASCII code point, the digits int() accepts. -/
def pyIsDigit (c : Char) : Bool := 48 ≤ c.toNat && c.toNat ≤ 57

/-- Sign-and-digits recognition on an already-stripped token. -/
def pyToIntCore : Str → Option Int
  | [] => none
  | c :: cs =>
    if c = '-' then
      if cs ≠ [] ∧ cs.all pyIsDigit then some (-(natVal cs : Int)) else none
    else if c = '+' then
      if cs ≠ [] ∧ cs.all pyIsDigit then some (natVal cs : Int) else none
    else if (c :: cs).all pyIsDigit then some (natVal (c :: cs) : Int) else none

/-- Python int(token) on a string: strip whitespace, optional sign, then a
nonempty run of decimal digits; anything else raises ValueError (none here). -/
def pyToInt (w : Str) : Option Int := pyToIntCore (pyStrip w)

/-- The Python dict from group names to index lists, as an association
list; read_ndx only ever builds it through dset and dappend below. -/
abbrev Dict := List (Str × List Int)

/-- First-match lookup, the reading side of Python dict indexing. -/
def dlookup : Dict → Str → Option (List Int)
  | [], _ => none
  | (k, v) :: t, key => if k = key then some v else dlookup t key

/-- Python dict assignment d[k] = v: replace the first entry for k, or add a
new entry at the end. -/
def dset : Dict → Str → List Int → Dict
  | [], key, v => [(key, v)]
  | (k, w) :: t, key, v =>
    if k = key then (key, v) :: t else (k, w) :: dset t key v

/-- Python dict update d[k] += xs on a key that is present: extend the first
entry for k in place (absent keys are untouched; read_ndx never appends to an
absent key because every header first sets its entry). -/
def dappend : Dict → Str → List Int → Dict
  | [], _, _ => []
  | (k, w) :: t, key, xs =>
    if k = key then (k, w ++ xs) :: t else (k, w) :: dappend t key xs

/-- Python membership test key in d. -/
def dContains (d : Dict) (key : Str) : Bool := (dlookup d key).isSome

/-- Lookup with an unreachable default, the reading groups[group] performed by
write_ndx only on keys that passed the membership filter. -/
def dGet (d : Dict) (key : Str) : List Int := (dlookup d key).getD []

/-- The ValueError raised by int() on a malformed token; the exception message
names only the offending token. -/
structure MalformedInteger where
  token : Str
  deriving DecidableEq, Repr

/-- Left-to-right conversion of the tokens of a data line, stopping at the
first token int() rejects, as the list comprehension in read_ndx does. -/
def tokensToInts : List Str → Except MalformedInteger (List Int)
  | [] => .ok []
  | w :: ws =>
    match pyToInt w with
    | none => .error ⟨w⟩
    | some v => (tokensToInts ws).map (fun xs => v :: xs)

/-- Integers of one data line: split on whitespace, convert each token. -/
def intsOfLine (l : Str) : Except MalformedInteger (List Int) :=
  tokensToInts (pySplit l)

/-- Group name extracted from a header line by read_ndx: remove every
opening bracket, remove every closing bracket, then strip whitespace. -/
def headerName (l : Str) : Str :=
  pyStrip (removeChar ']' (removeChar '[' l))

/-- Parser state of read_ndx: the dict under construction, the current group
name, and the group-name list in file order. -/
structure RState where
  tbl : Dict
  cur : Option Str
  grps : List Str
  deriving DecidableEq, Repr

/-- One iteration of the read_ndx loop on one line. -/
def readStep (st : RState) (l : Str) : Except MalformedInteger RState :=
  if l.contains '[' then
    let g := headerName l
    .ok ⟨dset st.tbl g [], some g, st.grps ++ [g]⟩
  else
    match st.cur with
    | some g => (intsOfLine l).map fun xs => ⟨dappend st.tbl g xs, st.cur, st.grps⟩
    | none => .ok st

/-- The read_ndx loop over the remaining lines. -/
def readFold : List Str → RState → Except MalformedInteger RState
  | [], st => .ok st
  | l :: ls, st => (readStep st l).bind (readFold ls)

/-- read_ndx: parse the lines of an index file into the dict of groups and
the list of group names in file order. -/
def read_ndx (lines : List Str) : Except MalformedInteger (Dict × List Str) :=
  (readFold lines ⟨[], none, []⟩).map fun st => (st.tbl, st.grps)

/-- Chunk size measure used as fuel for the wrapping loop. -/
def csize (chunks : List Str) : Nat := (chunks.map (fun c => c.length + 1)).sum

/-- Greedy chunk intake of one output line of textwrap: consume chunks while
the accumulated length stays within the width. Returns the consumed chunks
and the rest. -/
def wrapTake (width curLen : Nat) : List Str → (List Str × List Str)
  | [] => ([], [])
  | c :: cs =>
    if curLen + c.length ≤ width then
      let (tk, rest) := wrapTake width (curLen + c.length) cs
      (c :: tk, rest)
    else ([], c :: cs)

/-- Whether a chunk is pure whitespace (Python chunk.strip() == empty). -/
def chunkIsWs (c : Str) : Bool := c.all pyIsSpace

/-- Drop a trailing whitespace chunk from the current line, as
drop_whitespace does. -/
def dropTrailWs (cur : List Str) : List Str :=
  if !cur.isEmpty && chunkIsWs (cur.getLastD []) then cur.dropLast else cur

/-- Total length of a list of chunks. -/
def sumLen (cs : List Str) : Nat := (cs.map List.length).sum

/-- Drop one leading whitespace chunk, which _wrap_chunks does only once a
line has already been emitted. -/
def dropLeadWs (started : Bool) (chunks : List Str) : List Str :=
  if started && chunkIsWs (chunks.headD []) then chunks.tail else chunks

/-- The break_long_words handling: when the next chunk exceeds the width,
move the prefix that still fits (at least one character when the width
allows none) onto the current line and leave the remainder as a chunk. -/
def longAdjust (width : Nat) (cur rest : List Str) : List Str × List Str :=
  match rest with
  | [] => (cur, rest)
  | r :: rt =>
    if width < r.length then
      let spaceLeft := if width < 1 then 1 else width - sumLen cur
      (cur ++ [r.take spaceLeft], r.drop spaceLeft :: rt)
    else (cur, rest)

/-- The textwrap wrap loop over chunks (CPython _wrap_chunks with the wrap
defaults: drop_whitespace and break_long_words on, no indents). The started
flag records whether a line has been emitted, gating the leading-whitespace
drop. Fuel-driven; every iteration consumes at least one unit of csize. -/
def wrapGo (width : Nat) : Nat → List Str → Bool → List Str
  | 0, _, _ => []
  | _ + 1, [], _ => []
  | fuel + 1, c0 :: cs0, started =>
    let chunks := dropLeadWs started (c0 :: cs0)
    let tk := wrapTake width 0 chunks
    let adj := longAdjust width tk.1 tk.2
    let cur3 := dropTrailWs adj.1
    if cur3.isEmpty then wrapGo width fuel adj.2 started
    else cur3.flatten :: wrapGo width fuel adj.2 true

/-- Split a string into maximal runs of whitespace and non-whitespace, the
chunks textwrap feeds its wrapping loop. The texts wrapped by write_ndx are
space-joined decimal numbers, so the letter-directed hyphen splitting of
textwrap never applies and runs are exact. The flag sp tells whether the
accumulated run acc (reversed) is whitespace. -/
def chunkGo (sp : Bool) (acc : Str) : Str → List Str
  | [] => [acc.reverse]
  | c :: cs =>
    if pyIsSpace c = sp then chunkGo sp (c :: acc) cs
    else acc.reverse :: chunkGo (pyIsSpace c) [c] cs

/-- Runs of a nonempty string; empty text yields no chunks. -/
def chunkRuns : Str → List Str
  | [] => []
  | c :: cs => chunkGo (pyIsSpace c) [c] cs

/-- Whitespace normalization performed before chunking (replace_whitespace
turns every whitespace character into a plain space). -/
def normWs (l : Str) : Str := l.map fun c => if pyIsSpace c then ' ' else c

/-- textwrap.wrap(text, width): normalize whitespace, chunk, and run the
greedy wrapping loop. -/
def pywrap (width : Nat) (text : Str) : List Str :=
  let chunks := chunkRuns (normWs text)
  wrapGo width (csize chunks + 1) chunks false

/-- Header line written by write_ndx: an opening bracket, a space, the name,
a space, a closing bracket. -/
def hdrLine (g : Str) : Str := '[' :: ' ' :: (g ++ [' ', ']'])

/-- Body lines one group contributes to the output file: the space-joined
decimal indices wrapped at width 60; a print of the empty join still writes
one empty line. -/
def groupBody (ints : List Int) : List Str :=
  let ls := pywrap 60 (List.intercalate [' '] (ints.map intRepr))
  if ls.isEmpty then [[]] else ls

/-- write_ndx: emit the groups selected by the filter (all keys in stored
order when the filter is absent; Python leaves that order unspecified), each
as its header line followed by its body lines. -/
def write_ndx (groups : Dict) (group_filter : Option (List Str)) : List Str :=
  let eff := match group_filter with
    | none => groups.map Prod.fst
    | some gf => gf.filter (fun g => dContains groups g)
  eff.flatMap fun g => hdrLine g :: groupBody (dGet groups g)

/-- Concatenated integers of a run of data lines, failing at the first token
int() rejects, matching how successive loop iterations of read_ndx extend the
current group. -/
def datInts : List Str → Except MalformedInteger (List Int)
  | [] => .ok []
  | l :: ls => (intsOfLine l).bind fun xs => (datInts ls).map (fun ys => xs ++ ys)

/-- Words interleaved with single-space chunks: the chunk sequence textwrap
obtains from a space-joined word list. -/
def inter : List Str → List Str
  | [] => []
  | [w] => [w]
  | w :: ws => w :: [' '] :: inter ws

/-- Well-formed words for wrapping: nonempty, within the width, and free of
whitespace characters. -/
def wordsOK (width : Nat) (ws : List Str) : Prop :=
  ∀ w ∈ ws, w ≠ [] ∧ w.length ≤ width ∧ ∀ c ∈ w, pyIsSpace c = false

/-- Word-level greedy intake: consume the following words while each, with
its separating space, still fits in the width. Mirrors what wrapTake does to
an alternating chunk sequence. -/
def fitW (width : Nat) (curLen : Nat) : List Str → (List Str × List Str)
  | [] => ([], [])
  | w :: ws =>
    if curLen + 1 + w.length ≤ width then
      let (t, r) := fitW width (curLen + 1 + w.length) ws
      (w :: t, r)
    else ([], w :: ws)

example : read_ndx [s "[ group1 ]", s "1 2 3", s "[ group2 ]", s "4 5"] =
    .ok ([(s "group1", [1, 2, 3]), (s "group2", [4, 5])],
         [s "group1", s "group2"]) := by decide

example : write_ndx [(s "g", [1, 2])] (some [s "g"]) =
    [s "[ g ]", s "1 2"] := by decide

/-! Basic facts about the embedded Python string primitives. -/

lemma dropWhile_eq_self_of_all {p : Char → Bool} {l : Str}
    (h : ∀ c ∈ l, p c = false) : l.dropWhile p = l := by
  cases l with
  | nil => rfl
  | cons c cs => simp [List.dropWhile, h c (by simp)]

lemma pyStrip_no_ws {l : Str} (h : ∀ c ∈ l, pyIsSpace c = false) :
    pyStrip l = l := by
  unfold pyStrip
  rw [dropWhile_eq_self_of_all h,
    dropWhile_eq_self_of_all (fun c hc => h c (List.mem_reverse.mp hc)),
    List.reverse_reverse]

lemma pyStrip_cons_space {c : Char} {l : Str} (h : pyIsSpace c = true) :
    pyStrip (c :: l) = pyStrip l := by
  unfold pyStrip
  simp [List.dropWhile, h]

lemma pyStrip_length_le (l : Str) : (pyStrip l).length ≤ l.length := by
  unfold pyStrip
  calc ((l.dropWhile pyIsSpace).reverse.dropWhile pyIsSpace).reverse.length
      = ((l.dropWhile pyIsSpace).reverse.dropWhile pyIsSpace).length := by
        rw [List.length_reverse]
    _ ≤ (l.dropWhile pyIsSpace).reverse.length :=
        (List.dropWhile_sublist _).length_le
    _ = (l.dropWhile pyIsSpace).length := by rw [List.length_reverse]
    _ ≤ l.length := (List.dropWhile_sublist _).length_le

lemma strip_id_parts {g : Str} (h : pyStrip g = g) :
    g.dropWhile pyIsSpace = g ∧ g.reverse.dropWhile pyIsSpace = g.reverse := by
  have hd : g.dropWhile pyIsSpace = g := by
    cases g with
    | nil => rfl
    | cons c cs =>
      by_cases hc : pyIsSpace c = true
      · exfalso
        have h1 := pyStrip_cons_space (l := cs) hc
        rw [h] at h1
        have h2 := pyStrip_length_le cs
        rw [← h1] at h2
        simp at h2
      · simp [List.dropWhile, hc]
  refine ⟨hd, ?_⟩
  have h2 : ((g.reverse.dropWhile pyIsSpace).reverse) = g := by
    unfold pyStrip at h
    rw [hd] at h
    exact h
  have := congrArg List.reverse h2
  rwa [List.reverse_reverse] at this

lemma pyStrip_pad {g : Str} (h : pyStrip g = g) :
    pyStrip (' ' :: (g ++ [' '])) = g := by
  rw [pyStrip_cons_space (by decide)]
  by_cases hg : g = []
  · subst hg; decide
  · obtain ⟨hd, ht⟩ := strip_id_parts h
    have hne : (g.dropWhile pyIsSpace).isEmpty = false := by
      rw [hd]
      cases g with
      | nil => exact absurd rfl hg
      | cons c cs => rfl
    unfold pyStrip
    rw [List.dropWhile_append, hne]
    simp only [Bool.false_eq_true, if_false]
    rw [hd, List.reverse_append]
    simp only [List.reverse_cons, List.reverse_nil, List.nil_append,
      List.singleton_append]
    rw [List.dropWhile_cons_of_pos (by decide), ht, List.reverse_reverse]

/-! Facts about whitespace splitting. -/

lemma pySplitGo_acc_mem : ∀ (l acc : Str) (x : Char), x ∈ acc →
    ∃ w ∈ pySplitGo l acc, x ∈ w := by
  intro l
  induction l with
  | nil =>
    intro acc x hx
    have : acc.isEmpty = false := by
      cases acc with
      | nil => simp at hx
      | cons a t => rfl
    refine ⟨acc.reverse, ?_, List.mem_reverse.mpr hx⟩
    simp [pySplitGo, this]
  | cons c cs ih =>
    intro acc x hx
    have hne : acc.isEmpty = false := by
      cases acc with
      | nil => simp at hx
      | cons a t => rfl
    by_cases hc : pyIsSpace c = true
    · refine ⟨acc.reverse, ?_, List.mem_reverse.mpr hx⟩
      simp [pySplitGo, hc, hne]
    · have hx' : x ∈ c :: acc := List.mem_cons_of_mem _ hx
      obtain ⟨w, hw, hxw⟩ := ih (c :: acc) x hx'
      refine ⟨w, ?_, hxw⟩
      simp only [pySplitGo, Bool.not_eq_true] at *
      simp [hc, hw]

lemma pySplit_mem_char : ∀ (l acc : Str) (x : Char), x ∈ l →
    pyIsSpace x = false → ∃ w ∈ pySplitGo l acc, x ∈ w := by
  intro l
  induction l with
  | nil => intro acc x hx; simp at hx
  | cons c cs ih =>
    intro acc x hx hxs
    by_cases hc : pyIsSpace c = true
    · have hxcs : x ∈ cs := by
        rcases List.mem_cons.mp hx with h1 | h1
        · rw [h1] at hxs; rw [hxs] at hc; cases hc
        · exact h1
      by_cases hne : acc.isEmpty = true
      · obtain ⟨w, hw, hxw⟩ := ih [] x hxcs hxs
        refine ⟨w, ?_, hxw⟩
        simp [pySplitGo, hc, hne, hw]
      · obtain ⟨w, hw, hxw⟩ := ih [] x hxcs hxs
        refine ⟨w, ?_, hxw⟩
        simp only [Bool.not_eq_true] at hne
        simp [pySplitGo, hc, hne]
        right
        exact hw
    · rcases List.mem_cons.mp hx with h1 | h1
      · subst h1
        obtain ⟨w, hw, hxw⟩ := pySplitGo_acc_mem cs (x :: acc) x (by simp)
        refine ⟨w, ?_, hxw⟩
        simp only [Bool.not_eq_true] at hc
        simp [pySplitGo, hc, hw]
      · obtain ⟨w, hw, hxw⟩ := ih (c :: acc) x h1 hxs
        refine ⟨w, ?_, hxw⟩
        simp only [Bool.not_eq_true] at hc
        simp [pySplitGo, hc, hw]

lemma pySplitGo_words_wf : ∀ (l acc : Str),
    (∀ a ∈ acc, pyIsSpace a = false) →
    ∀ w ∈ pySplitGo l acc, w ≠ [] ∧ ∀ c ∈ w, pyIsSpace c = false := by
  intro l
  induction l with
  | nil =>
    intro acc hacc w hw
    by_cases hne : acc.isEmpty = true
    · simp [pySplitGo, hne] at hw
    · simp [pySplitGo, hne] at hw
      subst hw
      constructor
      · simp only [ne_eq, List.reverse_eq_nil_iff]
        intro hnil
        rw [hnil] at hne
        exact hne rfl
      · intro c hc
        exact hacc c (List.mem_reverse.mp hc)
  | cons c cs ih =>
    intro acc hacc w hw
    by_cases hc : pyIsSpace c = true
    · by_cases hne : acc.isEmpty = true
      · simp only [pySplitGo, hc, if_true, hne] at hw
        exact ih [] (by simp) w hw
      · simp only [pySplitGo, hc, if_true, hne, if_false] at hw
        rcases List.mem_cons.mp hw with h1 | h1
        · subst h1
          constructor
          · simp only [ne_eq, List.reverse_eq_nil_iff]
            intro hnil
            rw [hnil] at hne
            exact hne rfl
          · intro x hx
            exact hacc x (List.mem_reverse.mp hx)
        · exact ih [] (by simp) w h1
    · simp only [pySplitGo, hc, if_false] at hw
      refine ih (c :: acc) ?_ w hw
      intro a ha
      rcases List.mem_cons.mp ha with h1 | h1
      · subst h1; simpa using hc
      · exact hacc a h1

lemma pySplitGo_length : ∀ (l acc : Str),
    sumLen (pySplitGo l acc) + (pySplitGo l acc).length ≤
      l.length + acc.length + 1 := by
  intro l
  induction l with
  | nil =>
    intro acc
    by_cases hne : acc.isEmpty = true
    · simp [pySplitGo, hne, sumLen]
    · simp [pySplitGo, hne, sumLen]
  | cons c cs ih =>
    intro acc
    by_cases hc : pyIsSpace c = true
    · by_cases hne : acc.isEmpty = true
      · have := ih []
        simp only [List.length_nil, Nat.add_zero] at this
        simp only [pySplitGo, hc, if_true, hne, List.length_cons]
        omega
      · have := ih []
        simp only [List.length_nil, Nat.add_zero] at this
        simp only [Bool.not_eq_true] at hne
        simp only [pySplitGo, hc, if_true, hne, Bool.false_eq_true, if_false]
        simp only [sumLen, List.map_cons, List.sum_cons, List.length_cons,
          List.length_reverse] at *
        omega
    · simp only [Bool.not_eq_true] at hc
      have := ih (c :: acc)
      simp only [pySplitGo, hc, Bool.false_eq_true, if_false]
      simp only [List.length_cons] at *
      omega

lemma pySplitGo_word_append : ∀ (w l acc : Str),
    (∀ c ∈ w, pyIsSpace c = false) →
    pySplitGo (w ++ l) acc = pySplitGo l (w.reverse ++ acc) := by
  intro w
  induction w with
  | nil => intro l acc _; simp
  | cons c w' ih =>
    intro l acc hw
    have hc : pyIsSpace c = false := hw c (by simp)
    simp only [List.cons_append, pySplitGo, hc, Bool.false_eq_true, if_false,
      List.append_eq]
    rw [ih l (c :: acc) (fun x hx => hw x (List.mem_cons_of_mem _ hx))]
    simp

lemma pySplitGo_space_cons : ∀ (l acc : Str), acc ≠ [] →
    pySplitGo (' ' :: l) acc = acc.reverse :: pySplitGo l [] := by
  intro l acc hacc
  have hne : acc.isEmpty = false := by
    cases acc with
    | nil => exact absurd rfl hacc
    | cons a t => rfl
  have hsp : pyIsSpace ' ' = true := by decide
  simp [pySplitGo, hne, hsp]

lemma intercalate_space_cons (w : Str) (ws : List Str) (h : ws ≠ []) :
    List.intercalate [' '] (w :: ws) = w ++ ' ' :: List.intercalate [' '] ws := by
  cases ws with
  | nil => exact absurd rfl h
  | cons v vs =>
    simp [List.intercalate, List.intersperse]

lemma pySplit_intercalate : ∀ (ws : List Str),
    (∀ w ∈ ws, w ≠ [] ∧ ∀ c ∈ w, pyIsSpace c = false) →
    pySplit (List.intercalate [' '] ws) = ws := by
  intro ws
  induction ws with
  | nil => intro _; rfl
  | cons w ws' ih =>
    intro h
    obtain ⟨hwne, hwc⟩ := h w (by simp)
    cases ws' with
    | nil =>
      have h1 : List.intercalate [' '] [w] = w := by
        simp [List.intercalate, List.intersperse]
      rw [h1]
      unfold pySplit
      have h2 := pySplitGo_word_append w [] [] hwc
      rw [List.append_nil] at h2
      rw [h2, List.append_nil]
      have hne : (w.reverse).isEmpty = false := by
        cases hwr : w.reverse with
        | nil =>
          exact absurd (by simpa using congrArg List.reverse hwr) hwne
        | cons a t => rfl
      simp [pySplitGo, hne]
    | cons v vs =>
      rw [intercalate_space_cons w (v :: vs) (by simp)]
      unfold pySplit
      rw [pySplitGo_word_append w _ [] hwc, List.append_nil,
        pySplitGo_space_cons _ _ (by simp [hwne]),
        List.reverse_reverse]
      congr 1
      exact ih (fun x hx => h x (List.mem_cons_of_mem _ hx))

lemma pySplit_words_wf (l : Str) :
    ∀ w ∈ pySplit l, w ≠ [] ∧ ∀ c ∈ w, pyIsSpace c = false :=
  pySplitGo_words_wf l [] (by simp)

lemma pySplit_length (l : Str) :
    sumLen (pySplit l) + (pySplit l).length ≤ l.length + 1 := by
  have := pySplitGo_length l []
  simpa using this

/-! Facts about the decimal representation and int() parsing. -/

lemma pyDigitChar_toNat {n : Nat} (h : n < 10) :
    (pyDigitChar n).toNat = 48 + n := by
  interval_cases n <;> decide

lemma natDigitsGo_digit_bounds : ∀ (f n : Nat), ∀ c ∈ natDigitsGo f n,
    48 ≤ c.toNat ∧ c.toNat ≤ 57 := by
  intro f
  induction f with
  | zero => intro n c hc; simp [natDigitsGo] at hc
  | succ f ih =>
    intro n c hc
    by_cases h : n < 10
    · simp [natDigitsGo, h] at hc
      subst hc
      rw [pyDigitChar_toNat h]
      omega
    · simp only [natDigitsGo, h, if_false] at hc
      rcases List.mem_append.mp hc with h1 | h1
      · exact ih (n / 10) c h1
      · simp at h1
        subst h1
        rw [pyDigitChar_toNat (Nat.mod_lt _ (by omega))]
        have := Nat.mod_lt n (show 0 < 10 by omega)
        omega

lemma digit_bounds_not_space {c : Char}
    (h : 48 ≤ c.toNat ∧ c.toNat ≤ 57) : pyIsSpace c = false := by
  unfold pyIsSpace
  have h1 : c ≠ ' ' := fun he => absurd (he ▸ h) (by decide)
  have h2 : c ≠ '\t' := fun he => absurd (he ▸ h) (by decide)
  have h3 : c ≠ '\n' := fun he => absurd (he ▸ h) (by decide)
  have h4 : c ≠ '\x0b' := fun he => absurd (he ▸ h) (by decide)
  have h5 : c ≠ '\x0c' := fun he => absurd (he ▸ h) (by decide)
  have h6 : c ≠ '\r' := fun he => absurd (he ▸ h) (by decide)
  simp [h1, h2, h3, h4, h5, h6]

lemma natDigits_ne_nil (n : Nat) : natDigits n ≠ [] := by
  unfold natDigits natDigitsGo
  by_cases h : n < 10
  · simp [h]
  · simp [h]

lemma natVal_append_digit (ds : Str) (c : Char) :
    natVal (ds ++ [c]) = 10 * natVal ds + (c.toNat - 48) := by
  simp [natVal, List.foldl_append]

lemma natVal_natDigitsGo : ∀ (n : Nat), ∀ (f : Nat), n < f →
    natVal (natDigitsGo f n) = n := by
  intro n
  induction n using Nat.strong_induction_on with
  | _ n ih =>
    intro f hf
    cases f with
    | zero => omega
    | succ f =>
      by_cases h : n < 10
      · simp only [natDigitsGo, h, if_true]
        simp [natVal, pyDigitChar_toNat h]
      · simp only [natDigitsGo, h, if_false]
        rw [natVal_append_digit]
        have hlt : n / 10 < n := Nat.div_lt_self (by omega) (by omega)
        rw [ih (n / 10) hlt f (by omega)]
        rw [pyDigitChar_toNat (Nat.mod_lt _ (by omega))]
        have := Nat.div_add_mod n 10
        omega

lemma natVal_natDigits (n : Nat) : natVal (natDigits n) = n :=
  natVal_natDigitsGo n (n + 1) (Nat.lt_succ_self n)

lemma natDigits_digit_bounds {n : Nat} {c : Char} (hc : c ∈ natDigits n) :
    48 ≤ c.toNat ∧ c.toNat ≤ 57 :=
  natDigitsGo_digit_bounds (n + 1) n c hc

lemma intRepr_chars {x : Int} {c : Char} (hc : c ∈ intRepr x) :
    pyIsSpace c = false ∧ c ≠ '[' ∧ c ≠ ']' ∧ c ≠ '\n' := by
  unfold intRepr at hc
  have hdig : (48 ≤ c.toNat ∧ c.toNat ≤ 57) ∨ c = '-' := by
    by_cases hx : x < 0
    · simp only [hx, if_true] at hc
      rcases List.mem_cons.mp hc with h1 | h1
      · exact Or.inr h1
      · exact Or.inl (natDigits_digit_bounds h1)
    · simp only [hx, if_false] at hc
      exact Or.inl (natDigits_digit_bounds hc)
  rcases hdig with h | h
  · refine ⟨digit_bounds_not_space h, ?_, ?_, ?_⟩
    · exact fun he => absurd (he ▸ h) (by decide)
    · exact fun he => absurd (he ▸ h) (by decide)
    · exact fun he => absurd (he ▸ h) (by decide)
  · subst h
    exact ⟨by decide, by decide, by decide, by decide⟩

lemma intRepr_ne_nil (x : Int) : intRepr x ≠ [] := by
  unfold intRepr
  by_cases h : x < 0
  · simp [h]
  · simp [h, natDigits_ne_nil]

lemma intRepr_no_space {x : Int} : ∀ c ∈ intRepr x, pyIsSpace c = false :=
  fun _ hc => (intRepr_chars hc).1

lemma natDigits_all_pyIsDigit (n : Nat) : (natDigits n).all pyIsDigit = true := by
  rw [List.all_eq_true]
  intro c hc
  have := natDigits_digit_bounds hc
  simp [pyIsDigit]
  omega

lemma pyToInt_intRepr (x : Int) : pyToInt (intRepr x) = some x := by
  have hstrip : pyStrip (intRepr x) = intRepr x :=
    pyStrip_no_ws (fun c hc => (intRepr_chars hc).1)
  unfold pyToInt
  rw [hstrip]
  by_cases hx : x < 0
  · have hrep : intRepr x = '-' :: natDigits x.natAbs := by
      unfold intRepr; simp [hx]
    rw [hrep]
    have hne : natDigits x.natAbs ≠ [] := natDigits_ne_nil _
    simp only [pyToIntCore, if_pos rfl, hne, natDigits_all_pyIsDigit,
      ne_eq, not_false_eq_true, and_self, if_true]
    rw [natVal_natDigits, Int.natCast_natAbs, abs_of_neg hx, neg_neg]
  · have hrep : intRepr x = natDigits x.natAbs := by
      unfold intRepr; simp [hx]
    rw [hrep]
    have hne : natDigits x.natAbs ≠ [] := natDigits_ne_nil _
    cases hd : natDigits x.natAbs with
    | nil => exact absurd hd hne
    | cons c cs =>
      have hcd : 48 ≤ c.toNat ∧ c.toNat ≤ 57 :=
        natDigits_digit_bounds (by rw [hd]; simp)
      have hcm : c ≠ '-' := fun he => absurd (he ▸ hcd) (by decide)
      have hcp : c ≠ '+' := fun he => absurd (he ▸ hcd) (by decide)
      have hall : (c :: cs).all pyIsDigit = true := by
        rw [← hd]; exact natDigits_all_pyIsDigit _
      simp only [pyToIntCore, if_neg hcm, if_neg hcp, hall, if_true]
      rw [← hd, natVal_natDigits, Int.natCast_natAbs,
        abs_of_nonneg (not_lt.mp hx)]

/-! Facts about the association-list model of the Python dict. -/

lemma dlookup_dset_self (d : Dict) (k : Str) (v : List Int) :
    dlookup (dset d k v) k = some v := by
  induction d with
  | nil => simp [dset, dlookup]
  | cons e t ih =>
    obtain ⟨k', v'⟩ := e
    by_cases h : k' = k
    · simp [dset, dlookup, h]
    · simp [dset, dlookup, h, ih]

lemma dlookup_dset_ne (d : Dict) {k k' : Str} (v : List Int) (h : k' ≠ k) :
    dlookup (dset d k v) k' = dlookup d k' := by
  induction d with
  | nil => simp [dset, dlookup, Ne.symm h]
  | cons e t ih =>
    obtain ⟨k0, v0⟩ := e
    by_cases h0 : k0 = k
    · subst h0
      simp [dset, dlookup, Ne.symm h]
    · simp [dset, dlookup, h0, ih]

lemma dlookup_dappend_ne (d : Dict) {k k' : Str} (xs : List Int)
    (h : k' ≠ k) : dlookup (dappend d k xs) k' = dlookup d k' := by
  induction d with
  | nil => simp [dappend, dlookup]
  | cons e t ih =>
    obtain ⟨k0, v0⟩ := e
    by_cases h0 : k0 = k
    · subst h0
      simp [dappend, dlookup, Ne.symm h]
    · simp [dappend, dlookup, h0, ih]

lemma dlookup_dappend_self {d : Dict} {k : Str} {w : List Int}
    (h : dlookup d k = some w) (xs : List Int) :
    dlookup (dappend d k xs) k = some (w ++ xs) := by
  induction d with
  | nil => simp [dlookup] at h
  | cons e t ih =>
    obtain ⟨k0, v0⟩ := e
    by_cases h0 : k0 = k
    · subst h0
      simp [dlookup] at h
      subst h
      simp [dappend, dlookup]
    · simp [dlookup, h0] at h
      simp [dappend, dlookup, h0, ih h]

lemma dappend_nil (d : Dict) (k : Str) : dappend d k [] = d := by
  induction d with
  | nil => rfl
  | cons e t ih =>
    obtain ⟨k0, v0⟩ := e
    by_cases h0 : k0 = k
    · simp [dappend, h0]
    · simp [dappend, h0, ih]

lemma dappend_dappend (d : Dict) (k : Str) (xs ys : List Int) :
    dappend (dappend d k xs) k ys = dappend d k (xs ++ ys) := by
  induction d with
  | nil => rfl
  | cons e t ih =>
    obtain ⟨k0, v0⟩ := e
    by_cases h0 : k0 = k
    · simp [dappend, h0]
    · simp [dappend, h0, ih]

lemma dappend_dset (d : Dict) (k : Str) (xs : List Int) :
    dappend (dset d k []) k xs = dset d k xs := by
  induction d with
  | nil => simp [dset, dappend]
  | cons e t ih =>
    obtain ⟨k0, v0⟩ := e
    by_cases h0 : k0 = k
    · simp [dset, dappend, h0]
    · simp [dset, dappend, h0, ih]

lemma dlookup_dset_isSome {d : Dict} {n : Str} (k : Str) (v : List Int)
    (h : (dlookup d n).isSome) : (dlookup (dset d k v) n).isSome := by
  by_cases he : n = k
  · subst he; simp [dlookup_dset_self]
  · rwa [dlookup_dset_ne d v he]

lemma dlookup_dappend_isSome (d : Dict) (n k : Str) (xs : List Int) :
    (dlookup (dappend d k xs) n).isSome = (dlookup d n).isSome := by
  by_cases he : n = k
  · subst he
    cases h : dlookup d n with
    | none =>
      induction d with
      | nil => simp [dappend, h]
      | cons e t ih =>
        obtain ⟨k0, v0⟩ := e
        by_cases h0 : k0 = n
        · subst h0; simp [dlookup] at h
        · simp [dlookup, h0] at h
          simp [dappend, dlookup, h0, ih h]
    | some w => simp [dlookup_dappend_self h, h]
  · rw [dlookup_dappend_ne d xs he]

/-! Facts about the read_ndx loop. -/

/-- The group name a line contributes to the group list, if it is a header. -/
def hdrOpt (l : Str) : Option Str :=
  if l.contains '[' then some (headerName l) else none

lemma hdrOpt_pos {l : Str} (h : l.contains '[' = true) :
    hdrOpt l = some (headerName l) := by
  unfold hdrOpt
  rw [h]
  rfl

lemma hdrOpt_neg {l : Str} (h : l.contains '[' = false) : hdrOpt l = none := by
  unfold hdrOpt
  rw [h]
  rfl

lemma readStep_header {st : RState} {l : Str} (h : l.contains '[' = true) :
    readStep st l =
      .ok ⟨dset st.tbl (headerName l) [], some (headerName l),
           st.grps ++ [headerName l]⟩ := by
  unfold readStep
  rw [h]
  rfl

lemma readStep_data {st : RState} {l : Str} {g : Str}
    (h : l.contains '[' = false) (hc : st.cur = some g) :
    readStep st l =
      (intsOfLine l).map fun xs => ⟨dappend st.tbl g xs, st.cur, st.grps⟩ := by
  unfold readStep
  rw [h, hc]
  rfl

lemma readStep_skip {st : RState} {l : Str}
    (h : l.contains '[' = false) (hc : st.cur = none) :
    readStep st l = .ok st := by
  unfold readStep
  rw [h, hc]
  rfl

lemma readFold_append : ∀ (a b : List Str) (st : RState),
    readFold (a ++ b) st = (readFold a st).bind (readFold b) := by
  intro a
  induction a with
  | nil => intro b st; rfl
  | cons l a' ih =>
    intro b st
    simp only [List.cons_append, readFold]
    cases readStep st l with
    | error e => rfl
    | ok st' => simp [Except.bind, ih]

lemma readFold_grps : ∀ (ls : List Str) (st st' : RState),
    readFold ls st = .ok st' →
    st'.grps = st.grps ++ ls.filterMap hdrOpt := by
  intro ls
  induction ls with
  | nil =>
    intro st st' h
    simp only [readFold, Except.ok.injEq] at h
    subst h
    simp
  | cons l ls' ih =>
    intro st st' h
    simp only [readFold] at h
    by_cases hl : l.contains '[' = true
    · rw [readStep_header hl] at h
      simp only [Except.bind] at h
      have hg := ih _ _ h
      rw [List.filterMap_cons, hdrOpt_pos hl]
      simp only at hg
      rw [hg]
      simp
    · simp only [Bool.not_eq_true] at hl
      rw [List.filterMap_cons, hdrOpt_neg hl]
      cases hc : st.cur with
      | none =>
        rw [readStep_skip hl hc] at h
        simp only [Except.bind] at h
        exact ih _ _ h
      | some g =>
        rw [readStep_data hl hc] at h
        cases hi : intsOfLine l with
        | error e => rw [hi] at h; simp [Except.map, Except.bind] at h
        | ok xs =>
          rw [hi] at h
          simp only [Except.map, Except.bind] at h
          have hg := ih _ _ h
          simpa using hg

lemma readFold_data_run : ∀ (ls : List Str) (t : Dict) (g : Str)
    (gr : List Str), (∀ l ∈ ls, l.contains '[' = false) →
    readFold ls ⟨t, some g, gr⟩ =
      match datInts ls with
      | .ok xs => .ok ⟨dappend t g xs, some g, gr⟩
      | .error e => .error e := by
  intro ls
  induction ls with
  | nil =>
    intro t g gr _
    simp [readFold, datInts, dappend_nil]
  | cons l ls' ih =>
    intro t g gr h
    have hl : l.contains '[' = false := h l (by simp)
    simp only [readFold]
    rw [readStep_data hl rfl]
    cases hi : intsOfLine l with
    | error e => simp [Except.map, Except.bind, datInts, hi]
    | ok xs =>
      simp only [Except.map, Except.bind]
      rw [ih _ _ _ (fun x hx => h x (List.mem_cons_of_mem _ hx))]
      simp only [datInts, hi]
      cases hd : datInts ls' with
      | error e => simp [Except.map, Except.bind]
      | ok ys => simp [Except.map, Except.bind, dappend_dappend]

lemma readFold_preserve : ∀ (ls : List Str) (st st' : RState) (name : Str),
    readFold ls st = .ok st' →
    (∀ l ∈ ls, l.contains '[' = true → headerName l ≠ name) →
    st.cur ≠ some name →
    dlookup st'.tbl name = dlookup st.tbl name ∧ st'.cur ≠ some name := by
  intro ls
  induction ls with
  | nil =>
    intro st st' name h _ hcur
    simp only [readFold, Except.ok.injEq] at h
    subst h
    exact ⟨rfl, hcur⟩
  | cons l ls' ih =>
    intro st st' name h hno hcur
    simp only [readFold] at h
    by_cases hl : l.contains '[' = true
    · rw [readStep_header hl] at h
      simp only [Except.bind] at h
      have hname : headerName l ≠ name := hno l (by simp) hl
      have := ih _ _ name h
        (fun x hx => hno x (List.mem_cons_of_mem _ hx))
        (by simp only [ne_eq, Option.some.injEq]; exact hname)
      obtain ⟨h1, h2⟩ := this
      refine ⟨?_, h2⟩
      rw [h1]
      exact dlookup_dset_ne st.tbl [] (Ne.symm hname)
    · simp only [Bool.not_eq_true] at hl
      cases hc : st.cur with
      | none =>
        rw [readStep_skip hl hc] at h
        simp only [Except.bind] at h
        exact ih _ _ name h (fun x hx => hno x (List.mem_cons_of_mem _ hx))
          (by rw [hc]; simp)
      | some g =>
        have hg : g ≠ name := by
          intro he
          rw [he] at hc
          exact hcur hc
        rw [readStep_data hl hc] at h
        cases hi : intsOfLine l with
        | error e => rw [hi] at h; simp [Except.map, Except.bind] at h
        | ok xs =>
          rw [hi] at h
          simp only [Except.map, Except.bind] at h
          have := ih _ _ name h
            (fun x hx => hno x (List.mem_cons_of_mem _ hx))
            (by simp only [ne_eq, hc, Option.some.injEq]; exact hg)
          obtain ⟨h1, h2⟩ := this
          refine ⟨?_, h2⟩
          rw [h1]
          exact dlookup_dappend_ne st.tbl xs (Ne.symm hg)

lemma readFold_inv : ∀ (ls : List Str) (st st' : RState),
    (∀ n ∈ st.grps, (dlookup st.tbl n).isSome) →
    readFold ls st = .ok st' →
    ∀ n ∈ st'.grps, (dlookup st'.tbl n).isSome := by
  intro ls
  induction ls with
  | nil =>
    intro st st' hinv h
    simp only [readFold, Except.ok.injEq] at h
    subst h
    exact hinv
  | cons l ls' ih =>
    intro st st' hinv h
    simp only [readFold] at h
    by_cases hl : l.contains '[' = true
    · rw [readStep_header hl] at h
      simp only [Except.bind] at h
      refine ih _ _ ?_ h
      intro n hn
      simp only [List.mem_append, List.mem_singleton] at hn
      rcases hn with hn | hn
      · exact dlookup_dset_isSome _ [] (hinv n hn)
      · subst hn
        simp [dlookup_dset_self]
    · simp only [Bool.not_eq_true] at hl
      cases hc : st.cur with
      | none =>
        rw [readStep_skip hl hc] at h
        simp only [Except.bind] at h
        exact ih _ _ hinv h
      | some g =>
        rw [readStep_data hl hc] at h
        cases hi : intsOfLine l with
        | error e => rw [hi] at h; simp [Except.map, Except.bind] at h
        | ok xs =>
          rw [hi] at h
          simp only [Except.map, Except.bind] at h
          refine ih _ _ ?_ h
          intro n hn
          simp only at hn
          rw [dlookup_dappend_isSome]
          exact hinv n hn

lemma tokensToInts_error : ∀ (ws : List Str) (e : MalformedInteger),
    tokensToInts ws = .error e → pyToInt e.token = none ∧ e.token ∈ ws := by
  intro ws
  induction ws with
  | nil => intro e h; simp [tokensToInts] at h
  | cons w ws' ih =>
    intro e h
    simp only [tokensToInts] at h
    cases hp : pyToInt w with
    | none =>
      rw [hp] at h
      simp only [Except.error.injEq] at h
      subst h
      exact ⟨hp, by simp⟩
    | some v =>
      rw [hp] at h
      cases ht : tokensToInts ws' with
      | error e' =>
        rw [ht] at h
        simp only [Except.map, Except.error.injEq] at h
        subst h
        obtain ⟨h1, h2⟩ := ih e' ht
        exact ⟨h1, List.mem_cons_of_mem _ h2⟩
      | ok xs => rw [ht] at h; simp [Except.map] at h

lemma tokensToInts_bad : ∀ (ws : List Str),
    (∃ w ∈ ws, pyToInt w = none) → ∃ e, tokensToInts ws = .error e := by
  intro ws
  induction ws with
  | nil => intro h; simp at h
  | cons w ws' ih =>
    intro h
    simp only [tokensToInts]
    cases hp : pyToInt w with
    | none => exact ⟨⟨w⟩, rfl⟩
    | some v =>
      obtain ⟨x, hx, hxn⟩ := h
      rcases List.mem_cons.mp hx with h1 | h1
      · subst h1; rw [hp] at hxn; cases hxn
      · obtain ⟨e, he⟩ := ih ⟨x, h1, hxn⟩
        rw [he]
        exact ⟨e, rfl⟩

lemma readFold_error_token : ∀ (ls : List Str) (st : RState)
    (e : MalformedInteger), readFold ls st = .error e →
    pyToInt e.token = none ∧ ∃ l ∈ ls, l.contains '[' = false ∧
      e.token ∈ pySplit l := by
  intro ls
  induction ls with
  | nil => intro st e h; simp [readFold] at h
  | cons l ls' ih =>
    intro st e h
    simp only [readFold] at h
    by_cases hl : l.contains '[' = true
    · rw [readStep_header hl] at h
      simp only [Except.bind] at h
      obtain ⟨h1, x, hx, h2⟩ := ih _ _ h
      exact ⟨h1, x, List.mem_cons_of_mem _ hx, h2⟩
    · simp only [Bool.not_eq_true] at hl
      cases hc : st.cur with
      | none =>
        rw [readStep_skip hl hc] at h
        simp only [Except.bind] at h
        obtain ⟨h1, x, hx, h2⟩ := ih _ _ h
        exact ⟨h1, x, List.mem_cons_of_mem _ hx, h2⟩
      | some g =>
        rw [readStep_data hl hc] at h
        cases hi : intsOfLine l with
        | error e' =>
          rw [hi] at h
          simp only [Except.map, Except.bind, Except.error.injEq] at h
          subst h
          obtain ⟨h1, h2⟩ := tokensToInts_error _ _ hi
          exact ⟨h1, l, by simp, hl, h2⟩
        | ok xs =>
          rw [hi] at h
          simp only [Except.map, Except.bind] at h
          obtain ⟨h1, x, hx, h2⟩ := ih _ _ h
          exact ⟨h1, x, List.mem_cons_of_mem _ hx, h2⟩

lemma readFold_bad_line : ∀ (ls : List Str) (st : RState) (g : Str),
    st.cur = some g →
    (∃ l ∈ ls, l.contains '[' = false ∧ ∃ w ∈ pySplit l, pyToInt w = none) →
    ∃ e, readFold ls st = .error e := by
  intro ls
  induction ls with
  | nil => intro st g _ h; simp at h
  | cons l ls' ih =>
    intro st g hc hbad
    simp only [readFold]
    by_cases hl : l.contains '[' = true
    · rw [readStep_header hl]
      simp only [Except.bind]
      refine ih _ (headerName l) rfl ?_
      obtain ⟨x, hx, hxh, hw⟩ := hbad
      rcases List.mem_cons.mp hx with h1 | h1
      · subst h1; rw [hl] at hxh; cases hxh
      · exact ⟨x, h1, hxh, hw⟩
    · simp only [Bool.not_eq_true] at hl
      rw [readStep_data hl hc]
      cases hi : intsOfLine l with
      | error e => exact ⟨e, by simp [Except.map, Except.bind]⟩
      | ok xs =>
        simp only [Except.map, Except.bind]
        refine ih _ g (by simp [hc]) ?_
        obtain ⟨x, hx, hxh, hw⟩ := hbad
        rcases List.mem_cons.mp hx with h1 | h1
        · subst h1
          obtain ⟨e, he⟩ := tokensToInts_bad _ hw
          rw [intsOfLine] at hi
          rw [he] at hi
          cases hi
        · exact ⟨x, h1, hxh, hw⟩

/-! Generic facts about the wrap loop, valid for arbitrary chunk lists. -/

lemma wrapTake_decomp : ∀ (chunks : List Str) (width c : Nat),
    (wrapTake width c chunks).1 ++ (wrapTake width c chunks).2 = chunks := by
  intro chunks
  induction chunks with
  | nil => intro width c; rfl
  | cons ch cs ih =>
    intro width c
    by_cases h : c + ch.length ≤ width
    · simp only [wrapTake, h, if_true]
      have := ih width (c + ch.length)
      cases he : wrapTake width (c + ch.length) cs with
      | mk tk rest =>
        rw [he] at this
        simp only [he]
        simp only at this
        simp [this]
    · simp [wrapTake, h]

lemma wrapTake_sum : ∀ (chunks : List Str) (width c : Nat), c ≤ width →
    c + sumLen (wrapTake width c chunks).1 ≤ width := by
  intro chunks
  induction chunks with
  | nil => intro width c h; simpa [wrapTake, sumLen] using h
  | cons ch cs ih =>
    intro width c h
    by_cases hc : c + ch.length ≤ width
    · simp only [wrapTake, hc, if_true]
      have := ih width (c + ch.length) hc
      cases he : wrapTake width (c + ch.length) cs with
      | mk tk rest =>
        rw [he] at this
        simp only [he, sumLen, List.map_cons, List.sum_cons]
        simp only [sumLen] at this
        omega
    · simpa [wrapTake, hc, sumLen] using h

lemma wrapGo_nil (width f : Nat) (st : Bool) : wrapGo width f [] st = [] := by
  cases f with
  | zero => rfl
  | succ f => rfl

lemma dropLeadWs_mem {started : Bool} {chunks : List Str} {c : Str}
    (h : c ∈ dropLeadWs started chunks) : c ∈ chunks := by
  unfold dropLeadWs at h
  by_cases hb : (started && chunkIsWs (chunks.headD [])) = true
  · rw [if_pos hb] at h
    exact List.mem_of_mem_tail h
  · rwa [if_neg hb] at h

lemma dropTrailWs_mem {cur : List Str} {c : Str} (h : c ∈ dropTrailWs cur) :
    c ∈ cur := by
  unfold dropTrailWs at h
  by_cases hb : (!cur.isEmpty && chunkIsWs (cur.getLastD [])) = true
  · rw [if_pos hb] at h
    exact (List.dropLast_sublist cur).mem h
  · rwa [if_neg hb] at h

lemma longAdjust_mem_left {width : Nat} {cur rest : List Str} {ch : Str}
    (h : ch ∈ (longAdjust width cur rest).1) :
    ch ∈ cur ∨ ∃ r ∈ rest, ∀ c ∈ ch, c ∈ r := by
  cases rest with
  | nil => exact Or.inl h
  | cons r rt =>
    simp only [longAdjust] at h
    by_cases hw : width < r.length
    · rw [if_pos hw] at h
      simp only [List.mem_append, List.mem_singleton] at h
      rcases h with h | h
      · exact Or.inl h
      · subst h
        exact Or.inr ⟨r, by simp, fun c hc => List.mem_of_mem_take hc⟩
    · rw [if_neg hw] at h
      exact Or.inl h

lemma longAdjust_mem_right {width : Nat} {cur rest : List Str} {ch : Str}
    (h : ch ∈ (longAdjust width cur rest).2) :
    ch ∈ rest ∨ ∃ r ∈ rest, ∀ c ∈ ch, c ∈ r := by
  cases rest with
  | nil => exact Or.inl h
  | cons r rt =>
    simp only [longAdjust] at h
    by_cases hw : width < r.length
    · rw [if_pos hw] at h
      rcases List.mem_cons.mp h with h1 | h1
      · subst h1
        exact Or.inr ⟨r, by simp, fun c hc => List.mem_of_mem_drop hc⟩
      · exact Or.inl (List.mem_cons_of_mem _ h1)
    · rw [if_neg hw] at h
      exact Or.inl h

lemma wrapGo_chars (width : Nat) (P : Char → Prop) : ∀ (f : Nat)
    (chunks : List Str) (st : Bool),
    (∀ ch ∈ chunks, ∀ c ∈ ch, P c) →
    ∀ l ∈ wrapGo width f chunks st, ∀ c ∈ l, P c := by
  intro f
  induction f with
  | zero => intro chunks st _ l hl; simp [wrapGo] at hl
  | succ f ih =>
    intro chunks st hP l hl
    cases chunks with
    | nil => simp [wrapGo] at hl
    | cons c0 cs0 =>
      simp only [wrapGo] at hl
      have hP1 : ∀ ch ∈ dropLeadWs st (c0 :: cs0), ∀ c ∈ ch, P c :=
        fun ch hch => hP ch (dropLeadWs_mem hch)
      set chunks1 := dropLeadWs st (c0 :: cs0) with hch1
      have hdec := wrapTake_decomp chunks1 width 0
      have hPtk1 : ∀ ch ∈ (wrapTake width 0 chunks1).1, ∀ c ∈ ch, P c := by
        intro ch hch
        exact hP1 ch (by rw [← hdec]; exact List.mem_append_left _ hch)
      have hPtk2 : ∀ ch ∈ (wrapTake width 0 chunks1).2, ∀ c ∈ ch, P c := by
        intro ch hch
        exact hP1 ch (by rw [← hdec]; exact List.mem_append_right _ hch)
      have hPadj1 : ∀ ch ∈ (longAdjust width (wrapTake width 0 chunks1).1
          (wrapTake width 0 chunks1).2).1, ∀ c ∈ ch, P c := by
        intro ch hch
        rcases longAdjust_mem_left hch with h1 | ⟨r, hr, hsub⟩
        · exact hPtk1 ch h1
        · exact fun c hc => hPtk2 r hr c (hsub c hc)
      have hPadj2 : ∀ ch ∈ (longAdjust width (wrapTake width 0 chunks1).1
          (wrapTake width 0 chunks1).2).2, ∀ c ∈ ch, P c := by
        intro ch hch
        rcases longAdjust_mem_right hch with h1 | ⟨r, hr, hsub⟩
        · exact hPtk2 ch h1
        · exact fun c hc => hPtk2 r hr c (hsub c hc)
      by_cases he : (dropTrailWs (longAdjust width (wrapTake width 0 chunks1).1
          (wrapTake width 0 chunks1).2).1).isEmpty = true
      · rw [if_pos he] at hl
        exact ih _ st hPadj2 l hl
      · rw [if_neg he] at hl
        rcases List.mem_cons.mp hl with h1 | h1
        · subst h1
          intro c hc
          obtain ⟨ch, hch, hcch⟩ := List.mem_flatten.mp hc
          exact hPadj1 ch (dropTrailWs_mem hch) c hcch
        · exact ih _ true hPadj2 l h1

lemma sumLen_dropTrail_le (cur : List Str) :
    sumLen (dropTrailWs cur) ≤ sumLen cur := by
  unfold dropTrailWs
  by_cases hb : (!cur.isEmpty && chunkIsWs (cur.getLastD [])) = true
  · rw [if_pos hb]
    have hsub : (cur.dropLast.map List.length).Sublist (cur.map List.length) :=
      (List.dropLast_sublist cur).map _
    simp only [sumLen]
    refine hsub.sum_le_sum ?_
    intro a _
    exact Nat.zero_le a
  · rw [if_neg hb]

lemma sumLen_append (a b : List Str) :
    sumLen (a ++ b) = sumLen a + sumLen b := by
  simp [sumLen]

lemma longAdjust_sum {width : Nat} (cur rest : List Str)
    (hw : 1 ≤ width) (hcur : sumLen cur ≤ width) :
    sumLen (longAdjust width cur rest).1 ≤ width := by
  cases rest with
  | nil => exact hcur
  | cons r rt =>
    simp only [longAdjust]
    by_cases hb : width < r.length
    · rw [if_pos hb]
      simp only
      rw [sumLen_append]
      have : sumLen [r.take (if width < 1 then 1 else width - sumLen cur)] ≤
          width - sumLen cur := by
        simp only [sumLen, List.map_cons, List.map_nil, List.sum_cons,
          List.sum_nil, Nat.add_zero, List.length_take]
        have : ¬ width < 1 := by omega
        simp [this]
      omega
    · rw [if_neg hb]
      exact hcur

lemma wrapGo_line_len (width : Nat) (hw : 1 ≤ width) : ∀ (f : Nat)
    (chunks : List Str) (st : Bool),
    ∀ l ∈ wrapGo width f chunks st, l.length ≤ width := by
  intro f
  induction f with
  | zero => intro chunks st l hl; simp [wrapGo] at hl
  | succ f ih =>
    intro chunks st l hl
    cases chunks with
    | nil => simp [wrapGo] at hl
    | cons c0 cs0 =>
      simp only [wrapGo] at hl
      set chunks1 := dropLeadWs st (c0 :: cs0) with hch1
      by_cases he : (dropTrailWs (longAdjust width (wrapTake width 0 chunks1).1
          (wrapTake width 0 chunks1).2).1).isEmpty = true
      · rw [if_pos he] at hl
        exact ih _ st l hl
      · rw [if_neg he] at hl
        rcases List.mem_cons.mp hl with h1 | h1
        · subst h1
          have hsum : sumLen (wrapTake width 0 chunks1).1 ≤ width := by
            have := wrapTake_sum chunks1 width 0 (by omega)
            omega
          have hadj := longAdjust_sum (wrapTake width 0 chunks1).1
            (wrapTake width 0 chunks1).2 hw hsum
          have hdrop := sumLen_dropTrail_le
            (longAdjust width (wrapTake width 0 chunks1).1
              (wrapTake width 0 chunks1).2).1
          have hflat : (dropTrailWs (longAdjust width
              (wrapTake width 0 chunks1).1
              (wrapTake width 0 chunks1).2).1).flatten.length =
              sumLen (dropTrailWs (longAdjust width
                (wrapTake width 0 chunks1).1
                (wrapTake width 0 chunks1).2).1) := by
            simp [sumLen, List.length_flatten]
          rw [hflat]
          omega
        · exact ih _ true l h1

/-! Structure of the chunk sequence obtained from a space-joined word list. -/

lemma inter_cons {ws : List Str} (w : Str) (h : ws ≠ []) :
    inter (w :: ws) = w :: [' '] :: inter ws := by
  cases ws with
  | nil => exact absurd rfl h
  | cons v vs => rfl

lemma inter_ne_nil (w : Str) (ws : List Str) : inter (w :: ws) ≠ [] := by
  cases ws with
  | nil => simp [inter]
  | cons v vs => simp [inter]

lemma flatten_inter : ∀ (ws : List Str),
    (inter ws).flatten = List.intercalate [' '] ws := by
  intro ws
  induction ws with
  | nil => rfl
  | cons w ws' ih =>
    cases ws' with
    | nil => simp [inter, List.intercalate, List.intersperse]
    | cons v vs =>
      rw [inter_cons w (by simp), intercalate_space_cons w (v :: vs) (by simp)]
      simp only [List.flatten_cons]
      rw [ih]
      simp

lemma fitW_decomp : ∀ (ws : List Str) (width c : Nat),
    (fitW width c ws).1 ++ (fitW width c ws).2 = ws := by
  intro ws
  induction ws with
  | nil => intro width c; rfl
  | cons w ws' ih =>
    intro width c
    by_cases h : c + 1 + w.length ≤ width
    · simp only [fitW, h, if_true]
      have := ih width (c + 1 + w.length)
      cases he : fitW width (c + 1 + w.length) ws' with
      | mk t r =>
        rw [he] at this
        simp only [he]
        simp only at this
        simp [this]
    · simp [fitW, h]

lemma csize_inter_append : ∀ (a b : List Str),
    csize (inter b) ≤ csize (inter (a ++ b)) := by
  intro a
  induction a with
  | nil => intro b; exact le_refl _
  | cons w a' ih =>
    intro b
    cases hab : a' ++ b with
    | nil =>
      have : b = [] := by
        rcases List.append_eq_nil.mp hab with ⟨_, h2⟩
        exact h2
      subst this
      simp [inter, csize]
    | cons x xs =>
      rw [List.cons_append, hab, inter_cons w (by simp)]
      have := ih b
      rw [hab] at this
      simp only [csize, List.map_cons, List.sum_cons] at this ⊢
      omega

lemma csize_inter_cons (w : Str) (ws : List Str) :
    csize (inter ws) + w.length + 1 ≤ csize (inter (w :: ws)) := by
  cases ws with
  | nil => simp [inter, csize]
  | cons v vs =>
    rw [inter_cons w (by simp)]
    simp only [csize, List.map_cons, List.sum_cons]
    omega

lemma chunkIsWs_word {w : Str} (hne : w ≠ [])
    (hc : ∀ c ∈ w, pyIsSpace c = false) : chunkIsWs w = false := by
  cases w with
  | nil => exact absurd rfl hne
  | cons c cs =>
    have := hc c (by simp)
    simp [chunkIsWs, this]

lemma inter_getLast : ∀ (ws : List Str) (w : Str),
    ∃ lw, (inter (w :: ws)).getLast? = some lw ∧ lw ∈ w :: ws := by
  intro ws
  induction ws with
  | nil => intro w; exact ⟨w, rfl, by simp⟩
  | cons v vs ih =>
    intro w
    rw [inter_cons w (by simp)]
    obtain ⟨lw, hlw, hmem⟩ := ih v
    refine ⟨lw, ?_, List.mem_cons_of_mem _ hmem⟩
    cases hvv : inter (v :: vs) with
    | nil => exact absurd hvv (inter_ne_nil v vs)
    | cons x xs =>
      rw [hvv] at hlw
      rw [List.getLast?_cons_cons, List.getLast?_cons_cons]
      exact hlw

lemma dropTrailWs_inter {width : Nat} {ws : List Str} (w : Str)
    (hok : wordsOK width (w :: ws)) :
    dropTrailWs (inter (w :: ws)) = inter (w :: ws) := by
  obtain ⟨lw, hlw, hmem⟩ := inter_getLast ws w
  obtain ⟨hne, _, hch⟩ := hok lw hmem
  have hlast : (inter (w :: ws)).getLastD [] = lw := by
    rw [List.getLastD_eq_getLast?, hlw]
    rfl
  unfold dropTrailWs
  rw [hlast, chunkIsWs_word hne hch]
  simp

lemma dropTrailWs_concat_space (xs : List Str) :
    dropTrailWs (xs ++ [[' ']]) = xs := by
  unfold dropTrailWs
  have h1 : (xs ++ [[' ']]).getLastD [] = [' '] := by
    rw [List.getLastD_eq_getLast?, List.getLast?_concat]
    rfl
  rw [h1]
  have h2 : chunkIsWs [' '] = true := by decide
  rw [h2]
  simp

lemma wrapTake_cons_fit {width c : Nat} {ch : Str} (cs : List Str)
    (h : c + ch.length ≤ width) :
    wrapTake width c (ch :: cs) =
      (ch :: (wrapTake width (c + ch.length) cs).1,
       (wrapTake width (c + ch.length) cs).2) := by
  simp only [wrapTake, h, if_true]

lemma wrapTake_cons_nofit {width c : Nat} {ch : Str} (cs : List Str)
    (h : ¬ c + ch.length ≤ width) :
    wrapTake width c (ch :: cs) = ([], ch :: cs) := by
  simp [wrapTake, h]

lemma fitW_cons_fit {width c : Nat} {w : Str} (ws : List Str)
    (h : c + 1 + w.length ≤ width) :
    fitW width c (w :: ws) =
      (w :: (fitW width (c + 1 + w.length) ws).1,
       (fitW width (c + 1 + w.length) ws).2) := by
  simp only [fitW, h, if_true]

lemma fitW_cons_nofit {width c : Nat} {w : Str} (ws : List Str)
    (h : ¬ c + 1 + w.length ≤ width) :
    fitW width c (w :: ws) = ([], w :: ws) := by
  simp [fitW, h]


lemma space_chunk_len : ([' '] : Str).length = 1 := rfl

lemma wrapTake_inter : ∀ (ws : List Str) (w : Str) (width c : Nat),
    c + w.length ≤ width →
    ((fitW width (c + w.length) ws).2 = [] ∧
      wrapTake width c (inter (w :: ws)) =
        (inter (w :: (fitW width (c + w.length) ws).1), []))
    ∨ ((fitW width (c + w.length) ws).2 ≠ [] ∧
        wrapTake width c (inter (w :: ws)) =
          (inter (w :: (fitW width (c + w.length) ws).1) ++ [[' ']],
           inter (fitW width (c + w.length) ws).2))
    ∨ ((fitW width (c + w.length) ws).2 ≠ [] ∧
        wrapTake width c (inter (w :: ws)) =
          (inter (w :: (fitW width (c + w.length) ws).1),
           [' '] :: inter (fitW width (c + w.length) ws).2)) := by
  intro ws
  induction ws with
  | nil =>
    intro w width c h
    left
    constructor
    · rfl
    · show wrapTake width c [w] = ([w], [])
      rw [wrapTake_cons_fit [] h]
      rfl
  | cons w2 ws' ih =>
    intro w width c h
    rw [inter_cons w (by simp), wrapTake_cons_fit _ h]
    by_cases hsp : c + w.length + 1 ≤ width
    · have hsp' : c + w.length + ([' '] : Str).length ≤ width := by
        rw [space_chunk_len]; exact hsp
      rw [wrapTake_cons_fit _ hsp', space_chunk_len]
      by_cases hw2 : c + w.length + 1 + w2.length ≤ width
      · have hfit : fitW width (c + w.length) (w2 :: ws') =
            (w2 :: (fitW width (c + w.length + 1 + w2.length) ws').1,
             (fitW width (c + w.length + 1 + w2.length) ws').2) :=
          fitW_cons_fit ws' hw2
        rcases ih w2 width (c + w.length + 1) hw2 with
          ⟨h1, h2⟩ | ⟨h1, h2⟩ | ⟨h1, h2⟩
        · left
          rw [hfit, h2]
          refine ⟨h1, ?_⟩
          simp only
          rw [inter_cons w (by simp)]
        · right; left
          rw [hfit, h2]
          refine ⟨h1, ?_⟩
          simp only
          rw [inter_cons w (by simp)]
          simp
        · right; right
          rw [hfit, h2]
          refine ⟨h1, ?_⟩
          simp only
          rw [inter_cons w (by simp)]
      · have hfit : fitW width (c + w.length) (w2 :: ws') = ([], w2 :: ws') :=
          fitW_cons_nofit ws' (by omega)
        right; left
        rw [hfit]
        refine ⟨by simp, ?_⟩
        have hstop : wrapTake width (c + w.length + 1)
            (inter (w2 :: ws')) = ([], inter (w2 :: ws')) := by
          cases hws' : ws' with
          | nil =>
            simp only [inter]
            exact wrapTake_cons_nofit [] (by omega)
          | cons v vs =>
            rw [inter_cons w2 (by simp)]
            exact wrapTake_cons_nofit _ (by omega)
        rw [hstop]
        simp [inter]
    · have hsp' : ¬ c + w.length + ([' '] : Str).length ≤ width := by
        rw [space_chunk_len]; exact hsp
      rw [wrapTake_cons_nofit _ hsp']
      have hfit : fitW width (c + w.length) (w2 :: ws') = ([], w2 :: ws') :=
        fitW_cons_nofit ws' (by omega)
      right; right
      rw [hfit]
      refine ⟨by simp, ?_⟩
      simp [inter]

lemma dropLeadWs_space {c0 : Str} (cs : List Str) (h : chunkIsWs c0 = true) :
    dropLeadWs true (c0 :: cs) = cs := by
  simp [dropLeadWs, h]

lemma dropLeadWs_word {c0 : Str} (cs : List Str) (st : Bool)
    (h : chunkIsWs c0 = false) : dropLeadWs st (c0 :: cs) = c0 :: cs := by
  simp [dropLeadWs, h]

lemma longAdjust_nil (width : Nat) (cur : List Str) :
    longAdjust width cur [] = (cur, []) := rfl

lemma longAdjust_short {width : Nat} {rh : Str} (cur : List Str)
    (rt : List Str) (h : ¬ width < rh.length) :
    longAdjust width cur (rh :: rt) = (cur, rh :: rt) := by
  simp [longAdjust, h]

lemma inter_shape (w : Str) (ws : List Str) :
    ∃ tl, inter (w :: ws) = w :: tl := by
  cases ws with
  | nil => exact ⟨[], rfl⟩
  | cons v vs => exact ⟨[' '] :: inter (v :: vs), rfl⟩

lemma wordsOK_mono {width : Nat} {a b : List Str}
    (hsub : ∀ x ∈ a, x ∈ b) (hok : wordsOK width b) : wordsOK width a :=
  fun w hw => hok w (hsub w hw)

lemma pySplit_flatten_inter {width : Nat} {ws : List Str}
    (hok : wordsOK width ws) : pySplit ((inter ws).flatten) = ws := by
  rw [flatten_inter]
  exact pySplit_intercalate ws
    (fun w hw => ⟨(hok w hw).1, (hok w hw).2.2⟩)

lemma wrapGo_space_inter (width : Nat) : ∀ (f : Nat) (ws : List Str),
    wordsOK width ws →
    wrapGo width f ([' '] :: inter ws) true = wrapGo width f (inter ws) true := by
  intro f ws hok
  cases f with
  | zero => rfl
  | succ f =>
    cases ws with
    | nil =>
      show wrapGo width (f + 1) [[' ']] true = wrapGo width (f + 1) [] true
      simp only [wrapGo]
      rw [dropLeadWs_space [] (by decide)]
      show (if (dropTrailWs (longAdjust width (wrapTake width 0 []).1
          (wrapTake width 0 []).2).1).isEmpty = true then
          wrapGo width f (longAdjust width (wrapTake width 0 []).1
            (wrapTake width 0 []).2).2 true
        else _) = []
      simp [wrapTake, longAdjust, dropTrailWs, wrapGo_nil]
    | cons w ws' =>
      obtain ⟨tl, htl⟩ := inter_shape w ws'
      obtain ⟨hne, _, hch⟩ := hok w (by simp)
      rw [htl]
      simp only [wrapGo]
      rw [dropLeadWs_space _ (by decide), dropLeadWs_word _ _
        (chunkIsWs_word hne hch)]

lemma wrapGo_inter (width : Nat) (hw : 1 ≤ width) : ∀ (f : Nat) (ws : List Str) (st : Bool),
    wordsOK width ws → csize (inter ws) < f →
    (wrapGo width f (inter ws) st).flatMap pySplit = ws := by
  intro f
  induction f with
  | zero => intro ws st _ hcs; omega
  | succ f ih =>
    intro ws st hok hcs
    cases ws with
    | nil => simp [inter, wrapGo]
    | cons w ws' =>
      obtain ⟨tl, htl⟩ := inter_shape w ws'
      obtain ⟨hwne, hwlen, hwch⟩ := hok w (by simp)
      rw [htl]
      simp only [wrapGo]
      rw [dropLeadWs_word _ _ (chunkIsWs_word hwne hwch), ← htl]
      have hfit0 : (0 : Nat) + w.length ≤ width := by omega
      have hdec := fitW_decomp ws' width (0 + w.length)
      rcases wrapTake_inter ws' w width 0 hfit0 with
        ⟨h1, h2⟩ | ⟨h1, h2⟩ | ⟨h1, h2⟩
      · -- all remaining words fit on this line
        rw [h2]
        simp only
        have htws : (fitW width (0 + w.length) ws').1 = ws' := by
          have := hdec
          rw [h1] at this
          simpa using this
        rw [htws] at *
        have hok1 : wordsOK width (w :: ws') := hok
        rw [longAdjust_nil, dropTrailWs_inter w hok1]
        simp only
        have hne2 : (inter (w :: ws')).isEmpty = false := by
          cases hI : inter (w :: ws') with
          | nil => exact absurd hI (inter_ne_nil w ws')
          | cons x xs => rfl
        rw [hne2]
        simp only [Bool.false_eq_true, if_false, List.flatMap_cons,
          wrapGo_nil, List.flatMap_nil, List.append_nil]
        exact pySplit_flatten_inter hok1
      · -- the line ends with a consumed space chunk before a refused word
        rw [h2]
        simp only
        set t := (fitW width (0 + w.length) ws').1 with ht
        set r := (fitW width (0 + w.length) ws').2 with hr
        have hsub_t : ∀ x ∈ t, x ∈ w :: ws' := by
          intro x hx
          right
          rw [← hdec]
          exact List.mem_append_left _ hx
        have hsub_r : ∀ x ∈ r, x ∈ ws' := by
          intro x hx
          rw [← hdec]
          exact List.mem_append_right _ hx
        have hokwt : wordsOK width (w :: t) := by
          intro x hx
          rcases List.mem_cons.mp hx with h | h
          · subst h; exact ⟨hwne, hwlen, hwch⟩
          · exact hok x (hsub_t x h)
        have hokr : wordsOK width r :=
          wordsOK_mono (fun x hx => List.mem_cons_of_mem _ (hsub_r x hx)) hok
        obtain ⟨rh, rt, hrr⟩ :
            ∃ rh rt, r = rh :: rt := by
          cases hrc : r with
          | nil => exact absurd hrc h1
          | cons a b => exact ⟨a, b, rfl⟩
        obtain ⟨rtl, hrtl⟩ := inter_shape rh rt
        have hrhlen : rh.length ≤ width := by
          have := hok rh (List.mem_cons_of_mem _ (hsub_r rh (by rw [hrr]; simp)))
          exact this.2.1
        rw [hrr, hrtl, longAdjust_short _ _ (by omega)]
        simp only
        rw [dropTrailWs_concat_space]
        have hne2 : (inter (w :: t)).isEmpty = false := by
          cases hI : inter (w :: t) with
          | nil => exact absurd hI (inter_ne_nil w t)
          | cons x xs => rfl
        rw [hne2]
        simp only [Bool.false_eq_true, if_false, List.flatMap_cons]
        rw [← hrtl]
        have hcsr : csize (inter (rh :: rt)) < f := by
          have hA : csize (inter (rh :: rt)) ≤ csize (inter ws') := by
            rw [← hdec, hrr]
            exact csize_inter_append t (rh :: rt)
          have hB := csize_inter_cons w ws'
          have hwl : 1 ≤ w.length := by
            cases hwc : w with
            | nil => exact absurd hwc hwne
            | cons a b => simp [hwc]
          omega
        rw [ih (rh :: rt) true (by rw [← hrr]; exact hokr) hcsr]
        rw [pySplit_flatten_inter hokwt]
        rw [← hrr, ht, hr]
        rw [show (w :: (fitW width (0 + w.length) ws').1) ++
            (fitW width (0 + w.length) ws').2 =
            w :: ((fitW width (0 + w.length) ws').1 ++
              (fitW width (0 + w.length) ws').2) from rfl]
        rw [hdec]
      · -- the line stops just before the separating space
        rw [h2]
        simp only
        set t := (fitW width (0 + w.length) ws').1 with ht
        set r := (fitW width (0 + w.length) ws').2 with hr
        have hsub_t : ∀ x ∈ t, x ∈ w :: ws' := by
          intro x hx
          right
          rw [← hdec]
          exact List.mem_append_left _ hx
        have hsub_r : ∀ x ∈ r, x ∈ ws' := by
          intro x hx
          rw [← hdec]
          exact List.mem_append_right _ hx
        have hokwt : wordsOK width (w :: t) := by
          intro x hx
          rcases List.mem_cons.mp hx with h | h
          · subst h; exact ⟨hwne, hwlen, hwch⟩
          · exact hok x (hsub_t x h)
        have hokr : wordsOK width r :=
          wordsOK_mono (fun x hx => List.mem_cons_of_mem _ (hsub_r x hx)) hok
        rw [longAdjust_short _ _ (by simp [space_chunk_len]; omega)]
        simp only
        rw [dropTrailWs_inter w hokwt]
        have hne2 : (inter (w :: t)).isEmpty = false := by
          cases hI : inter (w :: t) with
          | nil => exact absurd hI (inter_ne_nil w t)
          | cons x xs => rfl
        rw [hne2]
        simp only [Bool.false_eq_true, if_false, List.flatMap_cons]
        have hcsr : csize (inter r) < f := by
          have hA : csize (inter r) ≤ csize (inter ws') := by
            rw [← hdec]
            exact csize_inter_append t r
          have hB := csize_inter_cons w ws'
          have hwl : 1 ≤ w.length := by
            cases hwc : w with
            | nil => exact absurd hwc hwne
            | cons a b => simp [hwc]
          omega
        rw [wrapGo_space_inter width f r hokr]
        rw [ih r true hokr hcsr]
        rw [pySplit_flatten_inter hokwt]
        rw [ht, hr]
        rw [show (w :: (fitW width (0 + w.length) ws').1) ++
            (fitW width (0 + w.length) ws').2 =
            w :: ((fitW width (0 + w.length) ws').1 ++
              (fitW width (0 + w.length) ws').2) from rfl]
        rw [hdec]

/-! Chunking a space-joined word list yields the alternating sequence. -/

lemma chunkGo_word : ∀ (w cs acc : Str),
    (∀ c ∈ w, pyIsSpace c = false) →
    chunkGo false acc (w ++ cs) = chunkGo false (w.reverse ++ acc) cs := by
  intro w
  induction w with
  | nil => intro cs acc _; simp
  | cons c w' ih =>
    intro cs acc hw
    have hc : pyIsSpace c = false := hw c (by simp)
    rw [List.cons_append]
    rw [show chunkGo false acc (c :: (w' ++ cs)) =
      chunkGo false (c :: acc) (w' ++ cs) from by simp [chunkGo, hc]]
    rw [ih cs (c :: acc) (fun x hx => hw x (List.mem_cons_of_mem _ hx))]
    simp

lemma chunkGo_space_stop (cs acc : Str) :
    chunkGo false acc (' ' :: cs) = acc.reverse :: chunkGo true [' '] cs := by
  have h : pyIsSpace ' ' = true := by decide
  simp [chunkGo, h]

lemma chunkGo_word_after_space (cs : Str) {d : Char}
    (hd : pyIsSpace d = false) :
    chunkGo true [' '] (d :: cs) = [' '] :: chunkGo false [d] cs := by
  simp [chunkGo, hd]

lemma chunkRuns_inter : ∀ (ws : List Str),
    (∀ w ∈ ws, w ≠ [] ∧ ∀ c ∈ w, pyIsSpace c = false) →
    chunkRuns (List.intercalate [' '] ws) = inter ws := by
  intro ws
  induction ws with
  | nil => intro _; rfl
  | cons w ws' ih =>
    intro h
    obtain ⟨hwne, hwch⟩ := h w (by simp)
    obtain ⟨c, w', hw⟩ : ∃ c w', w = c :: w' := by
      cases hwc : w with
      | nil => exact absurd hwc hwne
      | cons a b => exact ⟨a, b, rfl⟩
    have hc : pyIsSpace c = false := hwch c (by rw [hw]; simp)
    cases ws' with
    | nil =>
      have h1 : List.intercalate [' '] [w] = w := by
        simp [List.intercalate, List.intersperse]
      rw [h1, hw]
      show chunkGo (pyIsSpace c) [c] w' = inter [c :: w']
      rw [hc]
      have := chunkGo_word w' [] [c]
        (fun x hx => hwch x (by rw [hw]; exact List.mem_cons_of_mem _ hx))
      rw [List.append_nil] at this
      rw [this]
      simp [chunkGo, inter]
    | cons v vs =>
      rw [intercalate_space_cons w (v :: vs) (by simp)]
      obtain ⟨hvne, hvch⟩ := h v (by simp)
      obtain ⟨d, v', hv⟩ : ∃ d v', v = d :: v' := by
        cases hvc : v with
        | nil => exact absurd hvc hvne
        | cons a b => exact ⟨a, b, rfl⟩
      have hd : pyIsSpace d = false := hvch d (by rw [hv]; simp)
      obtain ⟨z, hz⟩ : ∃ z, List.intercalate [' '] (v :: vs) =
          (d :: v') ++ z := by
        cases vs with
        | nil =>
          refine ⟨[], ?_⟩
          simp [List.intercalate, List.intersperse, hv]
        | cons u us =>
          refine ⟨' ' :: List.intercalate [' '] (u :: us), ?_⟩
          rw [intercalate_space_cons v (u :: us) (by simp), hv]
      rw [hw]
      show chunkGo (pyIsSpace c) [c] (w' ++ ' ' ::
        List.intercalate [' '] (v :: vs)) = inter ((c :: w') :: v :: vs)
      rw [hc]
      rw [chunkGo_word w' _ [c]
        (fun x hx => hwch x (by rw [hw]; exact List.mem_cons_of_mem _ hx))]
      rw [chunkGo_space_stop]
      have hrw : (w'.reverse ++ [c]).reverse = c :: w' := by simp
      rw [hrw]
      rw [hz, List.cons_append, chunkGo_word_after_space _ hd]
      have hcr : chunkGo false [d] (v' ++ z) =
          chunkRuns (List.intercalate [' '] (v :: vs)) := by
        rw [hz]
        show chunkGo false [d] (v' ++ z) =
          chunkGo (pyIsSpace d) [d] (v' ++ z)
        rw [hd]
      rw [hcr, ih (fun x hx => h x (List.mem_cons_of_mem _ hx))]
      rw [show inter ((c :: w') :: v :: vs) =
        (c :: w') :: [' '] :: inter (v :: vs) from inter_cons _ (by simp)]

lemma chunkGo_chars : ∀ (l acc : Str) (sp : Bool) (ch : Str) (c : Char),
    ch ∈ chunkGo sp acc l → c ∈ ch → c ∈ acc ∨ c ∈ l := by
  intro l
  induction l with
  | nil =>
    intro acc sp ch c hch hc
    simp only [chunkGo, List.mem_singleton] at hch
    subst hch
    exact Or.inl (List.mem_reverse.mp hc)
  | cons c0 cs ih =>
    intro acc sp ch c hch hc
    simp only [chunkGo] at hch
    by_cases hcls : pyIsSpace c0 = sp
    · rw [if_pos hcls] at hch
      rcases ih _ _ _ c hch hc with h | h
      · rcases List.mem_cons.mp h with h1 | h1
        · subst h1; exact Or.inr (by simp)
        · exact Or.inl h1
      · exact Or.inr (List.mem_cons_of_mem _ h)
    · rw [if_neg hcls] at hch
      rcases List.mem_cons.mp hch with h1 | h1
      · subst h1
        exact Or.inl (List.mem_reverse.mp hc)
      · rcases ih _ _ _ c h1 hc with h | h
        · rcases List.mem_singleton.mp (by simpa using h) with h2
          subst h2
          exact Or.inr (by simp)
        · exact Or.inr (List.mem_cons_of_mem _ h)

lemma chunkRuns_chars {s0 : Str} {ch : Str} {c : Char}
    (hch : ch ∈ chunkRuns s0) (hc : c ∈ ch) : c ∈ s0 := by
  cases s0 with
  | nil => simp [chunkRuns] at hch
  | cons a l =>
    rcases chunkGo_chars l [a] (pyIsSpace a) ch c hch hc with h | h
    · rcases List.mem_singleton.mp h with h1
      subst h1
      simp
    · exact List.mem_cons_of_mem _ h

lemma mem_intercalate_space : ∀ (ws : List Str) (c : Char),
    c ∈ List.intercalate [' '] ws → c = ' ' ∨ ∃ w ∈ ws, c ∈ w := by
  intro ws
  induction ws with
  | nil => intro c hc; simp [List.intercalate] at hc
  | cons w ws' ih =>
    intro c hc
    cases ws' with
    | nil =>
      have h1 : List.intercalate [' '] [w] = w := by
        simp [List.intercalate, List.intersperse]
      rw [h1] at hc
      exact Or.inr ⟨w, by simp, hc⟩
    | cons v vs =>
      rw [intercalate_space_cons w (v :: vs) (by simp)] at hc
      rcases List.mem_append.mp hc with h | h
      · exact Or.inr ⟨w, by simp, h⟩
      · rcases List.mem_cons.mp h with h1 | h1
        · exact Or.inl h1
        · rcases ih c h1 with h2 | ⟨x, hx, h2⟩
          · exact Or.inl h2
          · exact Or.inr ⟨x, List.mem_cons_of_mem _ hx, h2⟩

lemma normWs_id {l : Str} (h : ∀ c ∈ l, pyIsSpace c = false ∨ c = ' ') :
    normWs l = l := by
  unfold normWs
  induction l with
  | nil => rfl
  | cons c cs ih =>
    simp only [List.map_cons, List.cons.injEq]
    constructor
    · rcases h c (by simp) with h1 | h1
      · simp [h1]
      · subst h1; simp
    · exact ih (fun x hx => h x (List.mem_cons_of_mem _ hx))

/-! The body lines a group contributes to the output file. -/

lemma reprs_wordsOK {ints : List Int}
    (h : ∀ x ∈ ints, (intRepr x).length ≤ 60) :
    wordsOK 60 (ints.map intRepr) := by
  intro w hw
  obtain ⟨x, hx, hxe⟩ := List.mem_map.mp hw
  subst hxe
  exact ⟨intRepr_ne_nil x, h x hx, fun c hc => (intRepr_chars hc).1⟩

lemma joined_chars {ints : List Int} {c : Char}
    (hc : c ∈ List.intercalate [' '] (ints.map intRepr)) :
    c = ' ' ∨ ∃ x ∈ ints, c ∈ intRepr x := by
  rcases mem_intercalate_space _ c hc with h | ⟨w, hw, hcw⟩
  · exact Or.inl h
  · obtain ⟨x, hx, hxe⟩ := List.mem_map.mp hw
    subst hxe
    exact Or.inr ⟨x, hx, hcw⟩

lemma pywrap_joined {ints : List Int}
    (h : ∀ x ∈ ints, (intRepr x).length ≤ 60) :
    pywrap 60 (List.intercalate [' '] (ints.map intRepr)) =
      wrapGo 60 (csize (inter (ints.map intRepr)) + 1)
        (inter (ints.map intRepr)) false := by
  unfold pywrap
  have hn : normWs (List.intercalate [' '] (ints.map intRepr)) =
      List.intercalate [' '] (ints.map intRepr) := by
    refine normWs_id ?_
    intro c hc
    rcases joined_chars hc with h1 | ⟨x, _, h1⟩
    · exact Or.inr h1
    · exact Or.inl (intRepr_chars h1).1
  rw [hn, chunkRuns_inter _ ?_]
  intro w hw
  obtain ⟨x, hx, hxe⟩ := List.mem_map.mp hw
  subst hxe
  exact ⟨intRepr_ne_nil x, fun c hc => (intRepr_chars hc).1⟩

lemma pywrap_words {ints : List Int} (hne : ints ≠ [])
    (h : ∀ x ∈ ints, (intRepr x).length ≤ 60) :
    (pywrap 60 (List.intercalate [' '] (ints.map intRepr))).flatMap pySplit =
      ints.map intRepr := by
  rw [pywrap_joined h]
  exact wrapGo_inter 60 (by omega) _ _ false (reprs_wordsOK h) (by omega)

lemma groupBody_eq_pywrap {ints : List Int} (hne : ints ≠ [])
    (h : ∀ x ∈ ints, (intRepr x).length ≤ 60) :
    groupBody ints = pywrap 60 (List.intercalate [' '] (ints.map intRepr)) := by
  unfold groupBody
  have hw := pywrap_words hne h
  have hnil : (pywrap 60 (List.intercalate [' ']
      (ints.map intRepr))).isEmpty = false := by
    cases hp : pywrap 60 (List.intercalate [' '] (ints.map intRepr)) with
    | nil =>
      rw [hp] at hw
      simp only [List.flatMap_nil] at hw
      have : ints.map intRepr ≠ [] := by
        cases hints : ints with
        | nil => exact absurd hints hne
        | cons a b => simp [hints]
      exact absurd hw.symm this
    | cons a b => rfl
  simp only [hnil, Bool.false_eq_true, if_false]

lemma groupBody_words {ints : List Int} (hne : ints ≠ [])
    (h : ∀ x ∈ ints, (intRepr x).length ≤ 60) :
    (groupBody ints).flatMap pySplit = ints.map intRepr := by
  rw [groupBody_eq_pywrap hne h]
  exact pywrap_words hne h

lemma groupBody_line_len (ints : List Int) :
    ∀ l ∈ groupBody ints, l.length ≤ 60 := by
  intro l hl
  unfold groupBody at hl
  by_cases he : (pywrap 60 (List.intercalate [' ']
      (ints.map intRepr))).isEmpty = true
  · rw [if_pos he] at hl
    simp only [List.mem_singleton] at hl
    subst hl
    simp
  · rw [if_neg he] at hl
    unfold pywrap at hl
    exact wrapGo_line_len 60 (by omega) _ _ _ l hl

lemma groupBody_no_bracket (ints : List Int) :
    ∀ l ∈ groupBody ints, l.contains '[' = false := by
  intro l hl
  unfold groupBody at hl
  by_cases he : (pywrap 60 (List.intercalate [' ']
      (ints.map intRepr))).isEmpty = true
  · rw [if_pos he] at hl
    simp only [List.mem_singleton] at hl
    subst hl
    rfl
  · rw [if_neg he] at hl
    unfold pywrap at hl
    have hP := wrapGo_chars 60 (fun c => c ≠ '[')
      (csize (chunkRuns (normWs (List.intercalate [' ']
        (ints.map intRepr)))) + 1)
      (chunkRuns (normWs (List.intercalate [' '] (ints.map intRepr))))
      false ?_ l hl
    · have : '[' ∉ l := fun hmem => hP '[' hmem rfl
      simpa using this
    · intro ch hch c hc
      have hcn : c ∈ normWs (List.intercalate [' '] (ints.map intRepr)) :=
        chunkRuns_chars hch hc
      unfold normWs at hcn
      obtain ⟨c0, hc0, hc0e⟩ := List.mem_map.mp hcn
      rcases joined_chars hc0 with h1 | ⟨x, _, h1⟩
      · subst h1
        subst hc0e
        decide
      · by_cases hsp : pyIsSpace c0 = true
        · rw [if_pos hsp] at hc0e
          subst hc0e
          decide
        · simp only [Bool.not_eq_true] at hsp
          rw [if_neg (by rw [hsp]; simp)] at hc0e
          subst hc0e
          exact (intRepr_chars h1).2.1

lemma groupBody_nil : groupBody [] = [[]] := rfl

lemma intercalate_space_length : ∀ (ws : List Str), ws ≠ [] →
    (List.intercalate [' '] ws).length + 1 = sumLen ws + ws.length := by
  intro ws
  induction ws with
  | nil => intro h; exact absurd rfl h
  | cons w ws' ih =>
    intro _
    cases ws' with
    | nil =>
      have h1 : List.intercalate [' '] [w] = w := by
        simp [List.intercalate, List.intersperse]
      rw [h1]
      simp [sumLen]
    | cons v vs =>
      rw [intercalate_space_cons w (v :: vs) (by simp)]
      have := ih (by simp)
      simp only [sumLen, List.map_cons, List.sum_cons, List.length_cons,
        List.length_append] at *
      omega

/-! Facts about write_ndx and reading back what it wrote. -/

lemma write_ndx_some (t : Dict) (gf : List Str) :
    write_ndx t (some gf) =
      (gf.filter (fun g => dContains t g)).flatMap
        (fun g => hdrLine g :: groupBody (dGet t g)) := rfl

lemma write_ndx_append (t : Dict) (a b : List Str) :
    write_ndx t (some (a ++ b)) =
      write_ndx t (some a) ++ write_ndx t (some b) := by
  rw [write_ndx_some, write_ndx_some, write_ndx_some,
    List.filter_append, List.flatMap_append]

lemma write_ndx_skip (t : Dict) (a b : List Str) (g : Str)
    (h : dContains t g = false) :
    write_ndx t (some (a ++ g :: b)) = write_ndx t (some (a ++ b)) := by
  rw [write_ndx_some, write_ndx_some, List.filter_append,
    List.filter_append, List.filter_cons, h]
  simp

lemma hdrLine_contains (g : Str) : (hdrLine g).contains '[' = true := by
  simp [hdrLine]

lemma hdrLine_inj {g1 g2 : Str} (h : hdrLine g1 = hdrLine g2) : g1 = g2 := by
  unfold hdrLine at h
  simp only [List.cons.injEq, true_and] at h
  exact List.append_cancel_right h

lemma write_ndx_headers (t : Dict) (gf : List Str) :
    (write_ndx t (some gf)).filter (fun l => l.contains '[') =
      (gf.filter (fun g => dContains t g)).map hdrLine := by
  rw [write_ndx_some]
  induction gf.filter (fun g => dContains t g) with
  | nil => rfl
  | cons g gs ih =>
    simp only [List.flatMap_cons, List.map_cons]
    rw [List.filter_append, List.filter_cons, hdrLine_contains]
    simp only [if_true]
    have hbody : (groupBody (dGet t g)).filter
        (fun l => l.contains '[') = [] := by
      rw [List.filter_eq_nil_iff]
      intro l hl
      rw [groupBody_no_bracket _ l hl]
      simp
    rw [hbody]
    simp only [List.cons_append, List.nil_append]
    rw [ih]

lemma removeChar_id {ch : Char} {l : Str} (h : ch ∉ l) :
    removeChar ch l = l := by
  unfold removeChar
  rw [List.filter_eq_self]
  intro a ha
  simp only [ne_eq, decide_eq_true_eq]
  intro he
  subst he
  exact h ha

lemma removeChar_append (ch : Char) (a b : Str) :
    removeChar ch (a ++ b) = removeChar ch a ++ removeChar ch b :=
  List.filter_append _ _

lemma headerName_hdrLine {g : Str} (h1 : '[' ∉ g) (h2 : ']' ∉ g)
    (h3 : pyStrip g = g) : headerName (hdrLine g) = g := by
  have hsplit : hdrLine g = (['[', ' '] ++ g) ++ [' ', ']'] := by
    simp [hdrLine]
  unfold headerName
  rw [hsplit]
  simp only [removeChar_append]
  rw [show removeChar ']' (removeChar '[' ['[', ' ']) = [' '] from by decide,
    show removeChar ']' (removeChar '[' [' ', ']']) = [' '] from by decide,
    removeChar_id h1, removeChar_id h2]
  simpa using pyStrip_pad h3

lemma tokensToInts_append : ∀ (a b : List Str),
    tokensToInts (a ++ b) =
      (tokensToInts a).bind fun xs => (tokensToInts b).map (xs ++ ·) := by
  intro a
  induction a with
  | nil =>
    intro b
    simp only [List.nil_append, tokensToInts, Except.bind]
    cases tokensToInts b with
    | error e => rfl
    | ok xs => simp [Except.map, Except.bind]
  | cons w a' ih =>
    intro b
    simp only [List.cons_append, tokensToInts, List.append_eq]
    cases pyToInt w with
    | none => rfl
    | some v =>
      rw [ih b]
      cases tokensToInts a' with
      | error e => rfl
      | ok xs =>
        cases tokensToInts b with
        | error e => rfl
        | ok ys => simp [Except.map, Except.bind]

lemma datInts_eq_tokens : ∀ (lines : List Str),
    datInts lines = tokensToInts (lines.flatMap pySplit) := by
  intro lines
  induction lines with
  | nil => rfl
  | cons l ls ih =>
    simp only [datInts, List.flatMap_cons, tokensToInts_append, intsOfLine,
      ih]

lemma tokensToInts_reprs : ∀ (xs : List Int),
    tokensToInts (xs.map intRepr) = .ok xs := by
  intro xs
  induction xs with
  | nil => rfl
  | cons x xs' ih =>
    simp only [List.map_cons, tokensToInts, pyToInt_intRepr, ih, Except.map]

lemma groupBody_words_all {vs : List Int}
    (h : ∀ x ∈ vs, (intRepr x).length ≤ 60) :
    (groupBody vs).flatMap pySplit = vs.map intRepr := by
  cases hv : vs with
  | nil => rfl
  | cons a b =>
    rw [← hv]
    exact groupBody_words (by rw [hv]; simp) h

lemma readFold_group (g : Str) (vs : List Int) (st : RState)
    (h1 : '[' ∉ g) (h2 : ']' ∉ g) (h3 : pyStrip g = g)
    (hv : ∀ x ∈ vs, (intRepr x).length ≤ 60) :
    readFold (hdrLine g :: groupBody vs) st =
      .ok ⟨dset st.tbl g vs, some g, st.grps ++ [g]⟩ := by
  simp only [readFold]
  rw [readStep_header (hdrLine_contains g), headerName_hdrLine h1 h2 h3]
  simp only [Except.bind]
  rw [readFold_data_run _ _ _ _ (groupBody_no_bracket vs)]
  rw [datInts_eq_tokens, groupBody_words_all hv, tokensToInts_reprs]
  simp only [dappend_dset]

lemma dlookup_mem : ∀ (t : Dict) (k : Str) (v : List Int),
    dlookup t k = some v → (k, v) ∈ t := by
  intro t
  induction t with
  | nil => intro k v h; simp [dlookup] at h
  | cons e t' ih =>
    intro k v h
    obtain ⟨k0, v0⟩ := e
    by_cases h0 : k0 = k
    · subst h0
      simp only [dlookup, if_true, eq_self_iff_true, Option.some.injEq] at h
      have hv : v0 = v := by simpa using h
      rw [← hv]
      simp
    · simp only [dlookup, h0, if_false] at h
      exact List.mem_cons_of_mem _ (ih k v h)

lemma dlookup_none_of_not_key {t : Dict} {k : Str}
    (h : k ∉ t.map Prod.fst) : dlookup t k = none := by
  induction t with
  | nil => rfl
  | cons e t' ih =>
    obtain ⟨k0, v0⟩ := e
    simp only [List.map_cons, List.mem_cons] at h
    push_neg at h
    rw [show dlookup ((k0, v0) :: t') k = dlookup t' k from by
      simp [dlookup, Ne.symm h.1]]
    exact ih h.2

lemma dlookup_isSome_of_key {t : Dict} {k : Str}
    (h : k ∈ t.map Prod.fst) : (dlookup t k).isSome = true := by
  induction t with
  | nil => simp at h
  | cons e t' ih =>
    obtain ⟨k0, v0⟩ := e
    by_cases h0 : k0 = k
    · simp [dlookup, h0]
    · simp only [List.map_cons, List.mem_cons] at h
      rcases h with h1 | h1
      · exact absurd h1.symm h0
      · simp only [dlookup, h0, if_false]
        exact ih h1

lemma dGet_eq {t : Dict} {k : Str} {v : List Int}
    (h : dlookup t k = some v) : dGet t k = v := by
  simp [dGet, h]

lemma readFold_write_groups : ∀ (G : List Str) (t : Dict) (st : RState),
    (∀ g ∈ G, '[' ∉ g ∧ ']' ∉ g ∧ pyStrip g = g ∧ dContains t g = true ∧
      ∀ x ∈ dGet t g, (intRepr x).length ≤ 60) →
    ∃ curF, readFold (write_ndx t (some G)) st =
      .ok ⟨G.foldl (fun d g => dset d g (dGet t g)) st.tbl, curF,
           st.grps ++ G⟩ := by
  intro G
  induction G with
  | nil =>
    intro t st _
    exact ⟨st.cur, by simp [write_ndx, readFold]⟩
  | cons g G' ih =>
    intro t st h
    obtain ⟨hb1, hb2, hst, hcon, hrep⟩ := h g (by simp)
    have hw : write_ndx t (some (g :: G')) =
        (hdrLine g :: groupBody (dGet t g)) ++ write_ndx t (some G') := by
      rw [show (g :: G') = [g] ++ G' from rfl, write_ndx_append]
      congr 1
      rw [write_ndx_some]
      simp [List.filter_cons, hcon]
    rw [hw, readFold_append, readFold_group g (dGet t g) st hb1 hb2 hst hrep]
    simp only [Except.bind]
    obtain ⟨curF, hF⟩ := ih t ⟨dset st.tbl g (dGet t g), some g,
      st.grps ++ [g]⟩ (fun x hx => h x (List.mem_cons_of_mem _ hx))
    refine ⟨curF, ?_⟩
    rw [hF]
    simp

lemma foldl_set_lookup : ∀ (G : List Str) (t d : Dict) (k : Str),
    dlookup (G.foldl (fun d g => dset d g (dGet t g)) d) k =
      if k ∈ G then some (dGet t k) else dlookup d k := by
  intro G
  induction G with
  | nil => intro t d k; simp
  | cons g G' ih =>
    intro t d k
    simp only [List.foldl_cons]
    rw [ih]
    by_cases hk : k ∈ G'
    · simp [hk]
    · by_cases hg : k = g
      · subst hg
        simp [hk, dlookup_dset_self]
      · rw [if_neg hk, dlookup_dset_ne _ _ hg]
        simp [hk, hg]

lemma dropWhile_head_false {p : Str → Bool} : ∀ {l : List Str} {x : Str}
    {xs : List Str}, l.dropWhile p = x :: xs → p x = false := by
  intro l
  induction l with
  | nil => intro x xs h; simp at h
  | cons c cs ih =>
    intro x xs h
    by_cases hc : p c = true
    · rw [List.dropWhile_cons_of_pos hc] at h
      exact ih h
    · rw [List.dropWhile_cons_of_neg hc] at h
      rw [← (List.cons.injEq _ _ _ _).mp h |>.1]
      simpa using hc

lemma readFold_skip_all : ∀ (l1 : List Str) (st : RState),
    st.cur = none → (∀ l ∈ l1, l.contains '[' = false) →
    readFold l1 st = .ok st := by
  intro l1
  induction l1 with
  | nil => intro st _ _; rfl
  | cons l ls ih =>
    intro st hc h
    simp only [readFold]
    rw [readStep_skip (h l (by simp)) hc]
    simp only [Except.bind]
    exact ih st hc (fun x hx => h x (List.mem_cons_of_mem _ hx))

lemma count_map_hdr : ∀ (l : List Str) (g : Str),
    ((l.map hdrLine).count (hdrLine g)) = l.count g := by
  intro l g
  induction l with
  | nil => rfl
  | cons x xs ih =>
    simp only [List.map_cons, List.count_cons, ih]
    congr 1
    by_cases hx : x = g
    · subst hx; simp
    · have : ¬ hdrLine x = hdrLine g := fun he => hx (hdrLine_inj he)
      simp [hx, this]

/-! Claim theorems. -/

/-- C3, counterexample. The claim says a header line uses only the text
between the first opening bracket and the matching closing bracket, so the
line consisting of x, an opening bracket, a, a closing bracket and y would
name the group a; read_ndx instead removes the brackets and keeps the
surrounding text, naming the group xay. -/
theorem C3_counterexample :
    read_ndx [s "x[a]y"] = .ok ([(s "xay", [])], [s "xay"]) ∧
    s "xay" ≠ s "a" := by
  constructor
  · decide
  · decide

/-- C3, amended. Every line containing an opening bracket is treated as a
header, and the group name recorded in the Group Order is the entire line
with every opening and closing bracket removed and surrounding whitespace
stripped; text outside the brackets is kept. -/
theorem C3_headerName : ∀ (lines : List Str) (t : Dict) (g : List Str),
    read_ndx lines = .ok (t, g) →
    g = lines.filterMap (fun l => if l.contains '[' then
      some (pyStrip (removeChar ']' (removeChar '[' l))) else none) := by
  intro lines t g h
  unfold read_ndx at h
  cases hf : readFold lines ⟨[], none, []⟩ with
  | error e => rw [hf] at h; simp [Except.map] at h
  | ok st =>
    rw [hf] at h
    simp only [Except.map, Except.ok.injEq, Prod.mk.injEq] at h
    have hg := readFold_grps lines _ _ hf
    simp only [List.nil_append] at hg
    rw [← h.2, hg]
    rfl

/-- C3, witness for the amended theorem. -/
theorem C3_headerName_w :
    [s "xay"] = [s "x[a]y"].filterMap (fun l => if l.contains '[' then
      some (pyStrip (removeChar ']' (removeChar '[' l))) else none) :=
  C3_headerName [s "x[a]y"] [(s "xay", [])] [s "xay"] (by decide)

/-- C4, counterexample. The claim says an empty group emits exactly its
header line and no further output line; write_ndx prints the empty wrapped
body with a print statement of its own, which contributes one empty line
after the header. -/
theorem C4_counterexample :
    write_ndx [(s "A", [])] (some [s "A"]) = [s "[ A ]", []] ∧
    ([s "[ A ]", ([] : Str)] : List Str) ≠ [s "[ A ]"] := by
  constructor
  · decide
  · decide

/-- C4, amended. A group with an empty index list contributes exactly its
header line followed by one empty line (and no other line) wherever it
occurs in the filter. -/
theorem C4_empty_group : ∀ (t : Dict) (gf1 gf2 : List Str) (g : Str),
    dlookup t g = some [] →
    write_ndx t (some (gf1 ++ g :: gf2)) =
      write_ndx t (some gf1) ++ (hdrLine g :: [[]]) ++
        write_ndx t (some gf2) := by
  intro t gf1 gf2 g h
  have hcon : dContains t g = true := by simp [dContains, h]
  have hcons : write_ndx t (some (g :: gf2)) =
      hdrLine g :: (groupBody (dGet t g) ++ write_ndx t (some gf2)) := by
    rw [write_ndx_some, write_ndx_some, List.filter_cons, hcon]
    simp [List.flatMap_cons]
  rw [write_ndx_append t gf1 (g :: gf2), hcons, dGet_eq h, groupBody_nil]
  simp

/-- C4, witness for the amended theorem. -/
theorem C4_empty_group_w :
    write_ndx [(s "A", [])] (some ([] ++ (s "A") :: [])) =
      write_ndx [(s "A", [])] (some []) ++ (hdrLine (s "A") :: [[]]) ++
        write_ndx [(s "A", [])] (some []) :=
  C4_empty_group [(s "A", [])] [] [] (s "A") (by decide)

/-- C6, confirmed. Serializing with a filter emits exactly the filter
entries that are keys of the table, in the filter's order (the header lines
of the output, in order, are exactly those of the surviving filter entries),
and a filter entry absent from the table is skipped silently: removing it
from the filter leaves the output unchanged, and write_ndx is total, so no
error is raised. -/
theorem C6_filter : ∀ (t : Dict) (gf : List Str),
    ((write_ndx t (some gf)).filter (fun l => l.contains '[') =
      (gf.filter (fun g => dContains t g)).map hdrLine) ∧
    ∀ (gf1 gf2 : List Str) (g : Str), dContains t g = false →
      write_ndx t (some (gf1 ++ g :: gf2)) =
        write_ndx t (some (gf1 ++ gf2)) :=
  fun t gf => ⟨write_ndx_headers t gf,
    fun gf1 gf2 g h => write_ndx_skip t gf1 gf2 g h⟩

/-- C6, witness. -/
theorem C6_filter_w :
    write_ndx [(s "A", [1])] (some ([s "A"] ++ (s "B") :: [])) =
      write_ndx [(s "A", [1])] (some ([s "A"] ++ [])) :=
  (C6_filter [(s "A", [1])] []).2 [s "A"] [] (s "B") (by decide)

/-- C8, confirmed. Lines before the first header line are ignored: dropping
them does not change the parse result; and parsing an empty line sequence
yields an empty Index Table and an empty Group Order. -/
theorem C8_prefix_ignored :
    (∀ (l1 l2 : List Str), (∀ l ∈ l1, l.contains '[' = false) →
      read_ndx (l1 ++ l2) = read_ndx l2) ∧
    read_ndx [] = .ok ([], []) := by
  constructor
  · intro l1 l2 h
    unfold read_ndx
    rw [readFold_append, readFold_skip_all l1 ⟨[], none, []⟩ rfl h]
    rfl
  · rfl

/-- C8, witness. -/
theorem C8_prefix_ignored_w :
    read_ndx ([s "stray 1 2"] ++ [s "[ A ]", s "3"]) =
      read_ndx [s "[ A ]", s "3"] :=
  C8_prefix_ignored.1 [s "stray 1 2"] [s "[ A ]", s "3"] (by decide)

/-- C9, confirmed. For every prefix of the input lines (every parsed line
sequence is such a prefix), the parse result satisfies the invariant:
every name in the Group Order has an entry in the Index Table. -/
theorem C9_invariant : ∀ (lines p : List Str) (t : Dict) (g : List Str),
    (∃ rest, lines = p ++ rest) → read_ndx p = .ok (t, g) →
    ∀ n ∈ g, (dlookup t n).isSome = true := by
  intro lines p t g _ h
  unfold read_ndx at h
  cases hf : readFold p ⟨[], none, []⟩ with
  | error e => rw [hf] at h; simp [Except.map] at h
  | ok st =>
    rw [hf] at h
    simp only [Except.map, Except.ok.injEq, Prod.mk.injEq] at h
    intro n hn
    rw [← h.1]
    refine readFold_inv p _ _ ?_ hf n (by rw [h.2]; exact hn)
    intro m hm
    exact absurd hm (List.not_mem_nil m)

/-- C9, witness. -/
theorem C9_invariant_w :
    (dlookup [(s "A", ([3] : List Int))] (s "A")).isSome = true :=
  C9_invariant [s "[ A ]", s "3"] [s "[ A ]", s "3"]
    [(s "A", [3])] [s "A"] ⟨[], by simp⟩ (by decide) (s "A") (by decide)

/-- C10, confirmed. A filter entry present in the table is emitted once per
occurrence: the output contains that group's header line exactly as many
times as the filter contains the name, and the output over a concatenated
filter is the concatenation of the outputs, so duplicates are emitted in
filter order and are not deduplicated. -/
theorem C10_duplicate_filter : ∀ (t : Dict) (g : Str) (gf : List Str),
    dContains t g = true →
    ((write_ndx t (some gf)).count (hdrLine g) = gf.count g) ∧
    ∀ gf1 gf2, write_ndx t (some (gf1 ++ gf2)) =
      write_ndx t (some gf1) ++ write_ndx t (some gf2) := by
  intro t g gf h
  constructor
  · have h1 := @List.count_filter Str _ _ (fun l => List.contains l '[')
      (hdrLine g) (write_ndx t (some gf)) (hdrLine_contains g)
    rw [← h1, write_ndx_headers, count_map_hdr]
    exact @List.count_filter Str _ _ (fun x => dContains t x) g gf h
  · intro gf1 gf2
    exact write_ndx_append t gf1 gf2

/-- C10, witness. -/
theorem C10_duplicate_filter_w :
    ((write_ndx [(s "A", [1])] (some [s "A", s "A"])).count
      (hdrLine (s "A")) = [s "A", s "A"].count (s "A")) ∧
    ∀ gf1 gf2, write_ndx [(s "A", [1])] (some (gf1 ++ gf2)) =
      write_ndx [(s "A", [1])] (some gf1) ++
        write_ndx [(s "A", [1])] (some gf2) :=
  C10_duplicate_filter [(s "A", [1])] (s "A") [s "A", s "A"] (by decide)

/-- C7, counterexample. The claim says the MalformedInteger error identifies
the offending token and line. The error raised by int() carries only the
token: the two inputs below have different offending data lines, yet
read_ndx returns the very same error value for both, so no function of the
error can identify the line. -/
theorem C7_counterexample :
    read_ndx [s "[ g ]", s "x 1"] = .error ⟨s "x"⟩ ∧
    read_ndx [s "[ g ]", s "1 x"] = .error ⟨s "x"⟩ ∧
    s "x 1" ≠ s "1 x" := by
  refine ⟨by decide, by decide, by decide⟩

lemma tokensToInts_ok_of_clean (ws : List Str)
    (h : ∀ x ∈ ws, pyToInt x ≠ none) : ∃ xs, tokensToInts ws = .ok xs := by
  cases ht : tokensToInts ws with
  | ok xs => exact ⟨xs, rfl⟩
  | error e =>
    obtain ⟨h1, h2⟩ := tokensToInts_error ws e ht
    exact absurd h1 (h e.token h2)

lemma readFold_clean : ∀ (ls : List Str) (st : RState),
    st.cur.isSome = true →
    (∀ l ∈ ls, l.contains '[' = false →
      ∀ tok ∈ pySplit l, pyToInt tok ≠ none) →
    ∃ st2, readFold ls st = .ok st2 ∧ st2.cur.isSome = true := by
  intro ls
  induction ls with
  | nil => intro st hc _; exact ⟨st, rfl, hc⟩
  | cons l ls2 ih =>
    intro st hc h
    simp only [readFold]
    by_cases hl : l.contains '[' = true
    · rw [readStep_header hl]
      simp only [Except.bind]
      exact ih _ (by simp) (fun x hx => h x (List.mem_cons_of_mem _ hx))
    · simp only [Bool.not_eq_true] at hl
      obtain ⟨g, hg⟩ := Option.isSome_iff_exists.mp hc
      rw [readStep_data hl hg]
      obtain ⟨xs, hxs⟩ := tokensToInts_ok_of_clean (pySplit l)
        (h l (by simp) hl)
      rw [show intsOfLine l = .ok xs from by rw [intsOfLine]; exact hxs]
      simp only [Except.map, Except.bind]
      exact ih _ (by rw [hg]; rfl) (fun x hx => h x (List.mem_cons_of_mem _ hx))

lemma tokensToInts_first_bad : ∀ (w1s : List Str) (w : Str) (ws : List Str),
    (∀ x ∈ w1s, pyToInt x ≠ none) → pyToInt w = none →
    tokensToInts (w1s ++ w :: ws) = .error ⟨w⟩ := by
  intro w1s
  induction w1s with
  | nil =>
    intro w ws _ hw
    simp only [List.nil_append, tokensToInts, hw]
  | cons x rest ih =>
    intro w ws h hw
    have hx : pyToInt x ≠ none := h x (by simp)
    cases hxv : pyToInt x with
    | none => exact absurd hxv hx
    | some v =>
      simp only [List.cons_append, tokensToInts, hxv, List.append_eq]
      rw [ih w ws (fun y hy => h y (List.mem_cons_of_mem _ hy)) hw]
      rfl

/-- C7, amended. When the first failure the parser reaches is the token w
(the input splits as ignored bracket-free lines before the first header,
then a header, then lines whose data lines all parse cleanly, then the data
line whose tokens are clean up to w with int() rejecting w), the whole
parse call fails with the MalformedInteger error carrying exactly that
token w, and nothing of the partially built table or group list is
returned (the result is only the error). The error still does not record
which line the token came from, as the counterexample shows. -/
theorem C7_malformed : ∀ (l0 : List Str) (h0 : Str) (l2 : List Str)
    (d : Str) (l3 : List Str) (w1s : List Str) (w : Str) (ws : List Str),
    (∀ l ∈ l0, l.contains '[' = false) →
    h0.contains '[' = true →
    (∀ l ∈ l2, l.contains '[' = false →
      ∀ tok ∈ pySplit l, pyToInt tok ≠ none) →
    d.contains '[' = false →
    pySplit d = w1s ++ w :: ws →
    (∀ tok ∈ w1s, pyToInt tok ≠ none) →
    pyToInt w = none →
    read_ndx (l0 ++ h0 :: (l2 ++ d :: l3)) = .error ⟨w⟩ := by
  intro l0 h0 l2 d l3 w1s w ws hl0 hh hclean hd hsplit hw1 hw
  have hfold : readFold (l0 ++ h0 :: (l2 ++ d :: l3)) ⟨[], none, []⟩ =
      .error ⟨w⟩ := by
    rw [readFold_append, readFold_skip_all l0 ⟨[], none, []⟩ rfl hl0]
    show readFold (h0 :: (l2 ++ d :: l3)) ⟨[], none, []⟩ = _
    simp only [readFold]
    rw [readStep_header hh]
    show readFold (l2 ++ d :: l3)
      ⟨[(headerName h0, [])], some (headerName h0), [headerName h0]⟩ = _
    rw [readFold_append]
    obtain ⟨st2, h2, hc2⟩ := readFold_clean l2
      ⟨[(headerName h0, [])], some (headerName h0), [headerName h0]⟩
      rfl hclean
    rw [h2]
    show readFold (d :: l3) st2 = _
    simp only [readFold]
    obtain ⟨g, hg⟩ := Option.isSome_iff_exists.mp hc2
    rw [readStep_data hd hg]
    rw [show intsOfLine d = .error ⟨w⟩ from by
      rw [intsOfLine, hsplit]; exact tokensToInts_first_bad w1s w ws hw1 hw]
    rfl
  unfold read_ndx
  rw [hfold]
  rfl

/-- C7, witness for the amended theorem: the unparsable pre-header line is
ignored, and the error names bar, the first unparsable token reached. -/
theorem C7_malformed_w :
    read_ndx ([s "foo"] ++ (s "[ g ]") :: ([] ++ (s "2 bar") :: [])) =
      .error ⟨s "bar"⟩ :=
  C7_malformed [s "foo"] (s "[ g ]") [] (s "2 bar") [] [s "2"] (s "bar") []
    (by decide) (by decide) (by decide) (by decide) (by decide) (by decide)
    (by decide)

/-- C1, counterexample. The claim says a reopened group's index list is the
concatenation of all of its blocks' integers. Reading headers A, B, A with
data 1 2, 3, 4 yields Group Order A, B, A as claimed, but the table entry
for A holds only the last block's integers: line 80 of molndx.py assigns a
fresh empty list on every header occurrence, so the first block's 1 2 is
discarded rather than extended. -/
theorem C1_counterexample :
    read_ndx [s "[ A ]", s "1 2", s "[ B ]", s "3", s "[ A ]", s "4"] =
      .ok ([(s "A", [4]), (s "B", [3])], [s "A", s "B", s "A"]) ∧
    ¬ ([4] : List Int) = [1, 2] ++ [4] := by
  refine ⟨by decide, by decide⟩

/-- C1, amended. When the same group-header name reappears, the Group Order
still records the name once per header occurrence in file order, but the
Index Table entry for that name is reset at each occurrence: after the last
header occurrence of the name, the entry holds exactly the integers of the
data lines up to the next header (the last block), not the concatenation of
all blocks. -/
theorem C1_reopen_resets : ∀ (l1 l2 : List Str) (hline name : Str)
    (t : Dict) (g : List Str),
    hline.contains '[' = true → headerName hline = name →
    (∀ l ∈ l2, l.contains '[' = true → headerName l ≠ name) →
    read_ndx (l1 ++ hline :: l2) = .ok (t, g) →
    (∃ xs, datInts (l2.takeWhile (fun l => !l.contains '[')) = .ok xs ∧
      dlookup t name = some xs) ∧
    g = (l1 ++ hline :: l2).filterMap hdrOpt := by
  intro l1 l2 hline name t g hh hname hno hread
  unfold read_ndx at hread
  cases hf : readFold (l1 ++ hline :: l2) ⟨[], none, []⟩ with
  | error e => rw [hf] at hread; simp [Except.map] at hread
  | ok stF =>
    rw [hf] at hread
    simp only [Except.map, Except.ok.injEq, Prod.mk.injEq] at hread
    have hgrps := readFold_grps _ _ _ hf
    simp only [List.nil_append] at hgrps
    refine ⟨?_, by rw [← hread.2, hgrps]⟩
    rw [readFold_append] at hf
    cases h1 : readFold l1 ⟨[], none, []⟩ with
    | error e => rw [h1] at hf; simp [Except.bind] at hf
    | ok st1 =>
      rw [h1] at hf
      simp only [Except.bind, readFold] at hf
      rw [readStep_header hh, hname] at hf
      simp only [Except.bind] at hf
      rw [show l2 = l2.takeWhile (fun l => !l.contains '[') ++
        l2.dropWhile (fun l => !l.contains '[') from
        (List.takeWhile_append_dropWhile _ _).symm, readFold_append] at hf
      rw [readFold_data_run _ _ _ _ ?hdata] at hf
      case hdata =>
        intro l hl
        have := List.mem_takeWhile_imp hl
        simpa using this
      cases h2 : datInts (l2.takeWhile (fun l => !l.contains '[')) with
      | error e => rw [h2] at hf; simp [Except.bind] at hf
      | ok xs =>
        rw [h2] at hf
        simp only [Except.bind] at hf
        rw [dappend_dset] at hf
        refine ⟨xs, rfl, ?_⟩
        rw [← hread.1]
        cases hrest : l2.dropWhile (fun l => !l.contains '[') with
        | nil =>
          rw [hrest] at hf
          simp only [readFold, Except.ok.injEq] at hf
          rw [← hf]
          exact dlookup_dset_self _ _ _
        | cons r0 rs =>
          rw [hrest] at hf
          have hr0c : r0.contains '[' = true := by
            have := dropWhile_head_false hrest
            simpa using this
          have hr0mem : r0 ∈ l2 := by
            refine (List.dropWhile_sublist
              (fun l => !List.contains l '[')).subset ?_
            rw [hrest]
            simp
          have hr0name : headerName r0 ≠ name := hno r0 hr0mem hr0c
          simp only [readFold] at hf
          rw [readStep_header hr0c] at hf
          simp only [Except.bind] at hf
          have hpres := readFold_preserve rs _ stF name hf ?hnost ?hcur
          case hnost =>
            intro l hl hlc
            refine hno l ?_ hlc
            refine (List.dropWhile_sublist
              (fun x => !List.contains x '[')).subset ?_
            rw [hrest]
            exact List.mem_cons_of_mem _ hl
          case hcur =>
            simp only [ne_eq, Option.some.injEq]
            exact hr0name
          rw [hpres.1]
          simp only
          rw [dlookup_dset_ne _ _ (Ne.symm hr0name)]
          exact dlookup_dset_self _ _ _

/-- C1, witness for the amended theorem. -/
theorem C1_reopen_resets_w :
    (∃ xs, datInts ([s "4"].takeWhile (fun l => !l.contains '[')) = .ok xs ∧
      dlookup [(s "A", [4])] (s "A") = some xs) ∧
    [s "A", s "A"] =
      ([s "[ A ]", s "1 2"] ++ (s "[ A ]") :: [s "4"]).filterMap hdrOpt :=
  C1_reopen_resets [s "[ A ]", s "1 2"] [s "4"] (s "[ A ]") (s "A")
    [(s "A", [4])] [s "A", s "A"] (by decide) (by decide)
    (by decide) (by decide)

/-- C2, counterexample. The claim quantifies over every Index Table and
every permutation of its keys. A key containing a closing bracket does not
round-trip: writing the single group named a]b and parsing the result
yields the group name ab, because the parser removes every bracket from the
header line, so neither the table nor the name sequence is recovered. -/
theorem C2_counterexample :
    read_ndx (write_ndx [(s "a]b", [1])] (some [s "a]b"])) =
      .ok ([(s "ab", [1])], [s "ab"]) ∧
    ([s "ab"] : List Str) ≠ [s "a]b"] := by
  refine ⟨by decide, by decide⟩

/-- C2, amended. The round-trip holds for every table and key permutation
whose names survive the header syntax and whose numbers survive wrapping:
no name contains a bracket (the parser strips all brackets) or a newline or
carriage return (one written name must stay one physical line), every name
is strip-invariant (the parser strips the name), and every stored integer
has a decimal form of at most 60 characters (longer words are broken by
textwrap). Parsing the serialized text then returns exactly the name
sequence, and a table with the same contents as the original (Python dict
equality is key-value equality, rendered here extensionally). -/
theorem C2_roundtrip : ∀ (T : Dict) (G : List Str),
    G.Perm (T.map Prod.fst) →
    (∀ g ∈ G, '[' ∉ g ∧ ']' ∉ g ∧ '\n' ∉ g ∧ '\r' ∉ g ∧ pyStrip g = g) →
    (∀ p ∈ T, ∀ x ∈ p.2, (intRepr x).length ≤ 60) →
    ∃ t', read_ndx (write_ndx T (some G)) = .ok (t', G) ∧
      ∀ k, dlookup t' k = dlookup T k := by
  intro T G hperm hsafe hrep
  have hhyp : ∀ g ∈ G, '[' ∉ g ∧ ']' ∉ g ∧ pyStrip g = g ∧
      dContains T g = true ∧ ∀ x ∈ dGet T g, (intRepr x).length ≤ 60 := by
    intro g hg
    obtain ⟨h1, h2, _, _, h5⟩ := hsafe g hg
    have hkey : g ∈ T.map Prod.fst := hperm.mem_iff.mp hg
    have hsome : (dlookup T g).isSome = true := dlookup_isSome_of_key hkey
    refine ⟨h1, h2, h5, hsome, ?_⟩
    obtain ⟨v, hv⟩ := Option.isSome_iff_exists.mp hsome
    rw [dGet_eq hv]
    exact hrep (g, v) (dlookup_mem T g v hv)
  obtain ⟨curF, hF⟩ := readFold_write_groups G T ⟨[], none, []⟩ hhyp
  refine ⟨G.foldl (fun d g => dset d g (dGet T g)) [], ?_, ?_⟩
  · unfold read_ndx
    rw [hF]
    simp [Except.map]
  · intro k
    rw [foldl_set_lookup]
    by_cases hk : k ∈ G
    · rw [if_pos hk]
      have hkey : k ∈ T.map Prod.fst := hperm.mem_iff.mp hk
      obtain ⟨v, hv⟩ := Option.isSome_iff_exists.mp
        (dlookup_isSome_of_key hkey)
      rw [dGet_eq hv, hv]
    · rw [if_neg hk]
      have hkey : k ∉ T.map Prod.fst := fun hm => hk (hperm.mem_iff.mpr hm)
      rw [dlookup_none_of_not_key hkey]
      rfl

/-- C2, witness for the amended theorem. -/
theorem C2_roundtrip_w :
    ∃ t', read_ndx (write_ndx [(s "A", [1, 2])] (some [s "A"])) =
      .ok (t', [s "A"]) ∧
      ∀ k, dlookup t' k = dlookup [(s "A", [1, 2])] k :=
  C2_roundtrip [(s "A", [1, 2])] [s "A"] (by decide) (by decide) (by decide)

/-- C5, counterexample. The claim says wrapping never splits a number's
digits. textwrap.wrap is called with break_long_words left at its default,
so a 61-digit number (ten to the sixtieth power) is split after its first
sixty digits: the body's tokens are no longer the written number. -/
theorem C5_counterexample :
    groupBody [(10 : Int) ^ 60] =
      ['1' :: List.replicate 59 '0', ['0']] ∧
    (['1' :: List.replicate 59 '0', ['0']] : List Str).flatMap pySplit ≠
      [intRepr ((10 : Int) ^ 60)] := by
  refine ⟨by decide, by decide⟩

/-- C5, amended. For a nonempty index list whose integers each have a
decimal form of at most 60 characters, every body line is at most 60
characters long, the whitespace-separated tokens of the body lines are
exactly the written numbers in order (so no number is split), and when the
space-joined string is exactly 61 characters long at least two body lines
are produced. Without the 60-character bound a longer number is broken
mid-digits, as the counterexample shows. -/
theorem C5_wrap : ∀ (ints : List Int), ints ≠ [] →
    (∀ x ∈ ints, (intRepr x).length ≤ 60) →
    (∀ l ∈ groupBody ints, l.length ≤ 60) ∧
    (groupBody ints).flatMap pySplit = ints.map intRepr ∧
    ((List.intercalate [' '] (ints.map intRepr)).length = 61 →
      2 ≤ (groupBody ints).length) := by
  intro ints hne h
  refine ⟨groupBody_line_len ints, groupBody_words hne h, ?_⟩
  intro h61
  by_contra hlt
  push_neg at hlt
  have hws : (ints.map intRepr) ≠ [] := by
    cases hi : ints with
    | nil => exact absurd hi hne
    | cons a b => simp [hi]
  cases hb : groupBody ints with
  | nil =>
    have := groupBody_words hne h
    rw [hb] at this
    simp only [List.flatMap_nil] at this
    exact hws this.symm
  | cons l rest =>
    cases rest with
    | nil =>
      have hwords := groupBody_words hne h
      rw [hb] at hwords
      simp only [List.flatMap_cons, List.flatMap_nil,
        List.append_nil] at hwords
      have hlen : l.length ≤ 60 := groupBody_line_len ints l (by rw [hb]; simp)
      have hsplit := pySplit_length l
      rw [hwords] at hsplit
      have hic := intercalate_space_length (ints.map intRepr) hws
      omega
    | cons l2 rest2 =>
      rw [hb] at hlt
      simp only [List.length_cons] at hlt
      omega

/-- C5, witness for the amended theorem: thirty-one single-digit numbers
joined by spaces make a 61-character string, so the wrap produces at least
two lines, each within 60 characters and splitting no number. -/
theorem C5_wrap_w :
    (∀ l ∈ groupBody (List.replicate 31 (1 : Int)), l.length ≤ 60) ∧
    (groupBody (List.replicate 31 (1 : Int))).flatMap pySplit =
      (List.replicate 31 (1 : Int)).map intRepr ∧
    ((List.intercalate [' ']
        ((List.replicate 31 (1 : Int)).map intRepr)).length = 61 →
      2 ≤ (groupBody (List.replicate 31 (1 : Int))).length) :=
  C5_wrap (List.replicate 31 (1 : Int)) (by decide) (by decide)
